import Mathlib

/-!
Verification of the kitchen-sync staging and deployment engine.

The definitions below are a shallow embedding of the core of the
kitchen-sync repository: the tree differ and collector in
src/kitchen_sync/sync.py, the local adapter in
src/kitchen_sync/adapters/local.py, and the staging-cleanup control flow
of the install command in src/kitchen_sync/cli.py.  Python dicts become
insertion-ordered association lists, the filesystem becomes an inductive
tree of files, symlinks and directories, and the Python standard-library
calls the code relies on (str.splitlines, difflib.unified_diff, shutil
copies) are modelled by Lean functions that follow their documented
behaviour.  Each definition carries a comment pointing at the code it
embeds.
-/

namespace KitchenSync

/-! ## Dictionaries

Python dicts are modelled as insertion-ordered association lists with
unique keys; `lookupKV` returns the first binding for a key. -/

/-- Lookup in a Python dict: the value bound to a key, if any. -/
def lookupKV {K V : Type} [DecidableEq K] : List (K × V) → K → Option V
  | [], _ => none
  | (k1, v1) :: rest, k => if k = k1 then some v1 else lookupKV rest k

/-- Assignment d[k] = v on a Python dict: replaces the binding in place
when the key is present, otherwise appends a new binding at the end. -/
def dictInsert {K V : Type} [DecidableEq K] : List (K × V) → K → V → List (K × V)
  | [], k, v => [(k, v)]
  | (k1, v1) :: rest, k, v =>
    if k = k1 then (k, v) :: rest else (k1, v1) :: dictInsert rest k v

/-- Keys of a dict, in insertion order. -/
def keysOf {K V : Type} (d : List (K × V)) : List K := d.map Prod.fst

/-- A FileSnapshot: Python dict[str, str] from relative path to content,
as built by collect_files and consumed by diff_trees. -/
abbrev Snapshot := List (String × String)

/-! ## str.splitlines(keepends=True) -/

/-- The characters Python str.splitlines treats as line boundaries. -/
def isLineBreakChar (c : Char) : Bool :=
  c == '\n' || c == '\r' || c == '\x0b' || c == '\x0c' ||
  c == '\x1c' || c == '\x1d' || c == '\x1e' || c == '\x85' ||
  c == '\u2028' || c == '\u2029'

/-- Python str.splitlines(keepends=True) on a character list: cut after
every line-break character, a CR LF pair counting as one boundary. -/
def splitCh : List Char → List (List Char)
  | [] => []
  | c :: rest =>
    if c = '\r' ∧ rest.head? = some '\n' then
      ('\r' :: '\n' :: []) :: splitCh rest.tail
    else if isLineBreakChar c then [c] :: splitCh rest
    else
      match splitCh rest with
      | [] => [[c]]
      | line :: lines => (c :: line) :: lines
termination_by cs => cs.length
decreasing_by
  · simp only [List.length_cons, List.length_tail]
    omega
  · simp
  · simp

/-- Concatenating the pieces produced by splitCh restores the input. -/
theorem splitCh_flatten (cs : List Char) : (splitCh cs).flatten = cs := by
  induction cs using splitCh.induct with
  | case1 => simp [splitCh]
  | case2 c rest hcond ih =>
    obtain ⟨hc, hh⟩ := hcond
    rcases rest with _ | ⟨c2, rest2⟩
    · simp at hh
    · simp only [List.head?_cons, Option.some.injEq] at hh
      subst hc hh
      rw [splitCh]
      simp only [if_pos (by simp : ('\r' : Char) = '\r' ∧
        (('\n' :: rest2).head? = some '\n'))]
      simpa using ih
  | case3 c rest hcond hb ih =>
    rw [splitCh]
    rw [if_neg hcond, if_pos hb]
    simpa using ih
  | case4 c rest hcond hb hs ih =>
    rw [splitCh]
    rw [if_neg hcond, if_neg hb, hs]
    rw [hs] at ih
    simp only [List.flatten_nil] at ih
    simp [← ih]
  | case5 c rest hcond hb line lines hs ih =>
    rw [splitCh]
    rw [if_neg hcond, if_neg hb, hs]
    rw [hs] at ih
    simp only [List.flatten_cons] at ih ⊢
    simp [ih]

/-- Python str.splitlines(keepends=True). -/
def splitlinesKeepends (s : String) : List String :=
  (splitCh s.data).map String.mk

/-- splitlinesKeepends is injective: joining the kept line ends restores
the original string, so distinct strings split into distinct line lists. -/
theorem splitlinesKeepends_injective (s t : String)
    (h : splitlinesKeepends s = splitlinesKeepends t) : s = t := by
  have hmk : Function.Injective String.mk := fun a b hab => by
    injection hab
  have hsplit : splitCh s.data = splitCh t.data :=
    List.map_injective_iff.mpr hmk h
  have hd : s.data = t.data := by
    rw [← splitCh_flatten s.data, ← splitCh_flatten t.data, hsplit]
  cases s; cases t
  exact congrArg String.mk hd

/-! ## difflib.unified_diff -/

/-- Concatenation of a list of strings, Python "".join applied to the
generator returned by difflib.unified_diff. -/
def joinLines : List String → String
  | [] => ""
  | s :: rest => s ++ joinLines rest

/-- Model of Python difflib.unified_diff over two line lists.  The model
keeps exactly the contract the calling code relies on: it yields nothing
when the two line sequences are equal, and otherwise a pair of header
lines labelled with fromfile and tofile followed by hunk lines.  The
internal hunk grouping computed by difflib.SequenceMatcher is not
reproduced; the development relies only on emptiness, determinism and
the header labels. -/
def unified_diff (a b : List String) (fromfile tofile : String) : List String :=
  if a = b then []
  else ("--- " ++ fromfile ++ "\n") :: ("+++ " ++ tofile ++ "\n") ::
    (a.map (fun l => "-" ++ l) ++ b.map (fun l => "+" ++ l))

theorem joinLines_cons_ne_empty (s : String) (rest : List String)
    (hs : s ≠ "") : joinLines (s :: rest) ≠ "" := by
  intro hcontra
  apply hs
  have : (s ++ joinLines rest).data = ("" : String).data := by
    rw [show s ++ joinLines rest = joinLines (s :: rest) from rfl, hcontra]
  cases s with
  | mk sd =>
    cases hj : joinLines rest with
    | mk jd =>
      rw [hj] at this
      simp only [String.data] at this
      have : sd ++ jd = [] := by
        have h2 : (String.mk sd ++ String.mk jd).data = sd ++ jd := rfl
        rw [h2] at this
        simpa using this
      rcases List.append_eq_nil.mp this with ⟨h1, _⟩
      simp [h1]

/-! ## diff_trees (sync.py lines 101 to 139) -/

/-- The path list diff_trees walks: sorted(set(local) | set(remote)). -/
def sortedPaths (local_files remote_files : Snapshot) : List String :=
  List.insertionSort (· ≤ ·) ((keysOf local_files ++ keysOf remote_files).dedup)

/-- The record diff_trees emits for one path, if any: the body of the
loop in sync.py lines 112 to 137.  Absent paths read as the empty string
through dict.get(path, default); a path present on one side only yields
a tagged label line, and a path present on both sides with different
content yields the joined unified diff, kept only when non-empty. -/
def recordFor (local_files remote_files : Snapshot) (path : String) : Option String :=
  let local_content := (lookupKV local_files path).getD ""
  let remote_content := (lookupKV remote_files path).getD ""
  if local_content = remote_content then none
  else if (lookupKV remote_files path).isNone then
    some ("  + " ++ path ++ " (local only)")
  else if (lookupKV local_files path).isNone then
    some ("  - " ++ path ++ " (remote only)")
  else
    let diff_text := joinLines (unified_diff
      (splitlinesKeepends remote_content) (splitlinesKeepends local_content)
      ("remote/" ++ path) ("local/" ++ path))
    if diff_text = "" then none else some diff_text

/-- diff_trees from sync.py: walk the sorted union of the key sets and
collect the records. -/
def diff_trees (local_files remote_files : Snapshot) : List String :=
  (sortedPaths local_files remote_files).foldl
    (fun diffs path =>
      match recordFor local_files remote_files path with
      | some d => diffs ++ [d]
      | none => diffs) []

theorem foldl_record_eq_filterMap (f : String → Option String)
    (ps : List String) (acc : List String) :
    ps.foldl (fun diffs path =>
      match f path with
      | some d => diffs ++ [d]
      | none => diffs) acc = acc ++ ps.filterMap f := by
  induction ps generalizing acc with
  | nil => simp
  | cons p rest ih =>
    simp only [List.foldl_cons, List.filterMap_cons]
    cases hf : f p with
    | none => simp [hf, ih]
    | some d => simp [hf, ih acc, ih (acc ++ [d])]

theorem diff_trees_eq_filterMap (local_files remote_files : Snapshot) :
    diff_trees local_files remote_files
      = (sortedPaths local_files remote_files).filterMap
          (recordFor local_files remote_files) := by
  unfold diff_trees
  rw [foldl_record_eq_filterMap]
  simp

theorem lookupKV_isSome_iff_mem {K V : Type} [DecidableEq K]
    (d : List (K × V)) (k : K) :
    (lookupKV d k).isSome ↔ k ∈ keysOf d := by
  induction d with
  | nil => simp [lookupKV, keysOf]
  | cons kv rest ih =>
    obtain ⟨k1, v1⟩ := kv
    by_cases hk : k = k1
    · simp [lookupKV, keysOf, hk]
    · simp only [lookupKV, if_neg hk, keysOf, List.map_cons, List.mem_cons]
      rw [ih]
      simp [keysOf, hk]

theorem sortedPaths_sorted_le (l r : Snapshot) :
    (sortedPaths l r).Sorted (· ≤ ·) :=
  List.sorted_insertionSort _ _

theorem sortedPaths_nodup (l r : Snapshot) : (sortedPaths l r).Nodup :=
  (List.perm_insertionSort _ _).nodup_iff.mpr (List.nodup_dedup _)

theorem sortedPaths_sorted_lt (l r : Snapshot) :
    (sortedPaths l r).Sorted (· < ·) :=
  (sortedPaths_sorted_le l r).lt_of_le (sortedPaths_nodup l r)

theorem mem_sortedPaths (l r : Snapshot) (p : String) :
    p ∈ sortedPaths l r ↔ p ∈ keysOf l ∨ p ∈ keysOf r := by
  unfold sortedPaths
  rw [(List.perm_insertionSort _ _).mem_iff]
  simp

/-- C7: diffing a snapshot against itself returns the empty sequence; the
loop body skips every path because both sides read identical content. -/
theorem diff_trees_self (s : Snapshot) : diff_trees s s = [] := by
  rw [diff_trees_eq_filterMap]
  apply List.filterMap_eq_nil_iff.mpr
  intro p _
  unfold recordFor
  simp

/-- C8: diff_trees output is the record map over the lexicographically
sorted, duplicate-free union of the key sets (so records appear in strict
lexicographic path order), and the output depends only on the key-to-content
mapping of each snapshot, not on the order the bindings were inserted. -/
theorem diff_trees_sorted_and_order_independent
    (local_files remote_files : Snapshot) :
    (diff_trees local_files remote_files
      = (sortedPaths local_files remote_files).filterMap
          (recordFor local_files remote_files))
    ∧ (sortedPaths local_files remote_files).Sorted (· < ·)
    ∧ ∀ (local2 remote2 : Snapshot),
        (∀ p, lookupKV local_files p = lookupKV local2 p) →
        (∀ p, lookupKV remote_files p = lookupKV remote2 p) →
        diff_trees local_files remote_files = diff_trees local2 remote2 := by
  refine ⟨diff_trees_eq_filterMap _ _, sortedPaths_sorted_lt _ _, ?_⟩
  intro local2 remote2 hl hr
  have hmem : ∀ p, p ∈ sortedPaths local_files remote_files
      ↔ p ∈ sortedPaths local2 remote2 := by
    intro p
    rw [mem_sortedPaths, mem_sortedPaths,
      ← lookupKV_isSome_iff_mem, ← lookupKV_isSome_iff_mem,
      ← lookupKV_isSome_iff_mem, ← lookupKV_isSome_iff_mem,
      hl p, hr p]
  have hperm : List.Perm (sortedPaths local_files remote_files)
      (sortedPaths local2 remote2) :=
    (List.perm_ext_iff_of_nodup (sortedPaths_nodup _ _) (sortedPaths_nodup _ _)).mpr hmem
  have hpaths : sortedPaths local_files remote_files = sortedPaths local2 remote2 :=
    List.eq_of_perm_of_sorted hperm (sortedPaths_sorted_le _ _) (sortedPaths_sorted_le _ _)
  rw [diff_trees_eq_filterMap, diff_trees_eq_filterMap, hpaths]
  apply List.filterMap_congr
  intro p _
  unfold recordFor
  rw [hl p, hr p]

/-- Witness for C8: two snapshots with the same bindings inserted in a
different order produce identical diff output. -/
theorem diff_trees_order_independent_witness :
    diff_trees [("a", "x"), ("b", "y")] []
      = diff_trees [("b", "y"), ("a", "x")] [] := by
  refine (diff_trees_sorted_and_order_independent [("a", "x"), ("b", "y")] []).2.2
    [("b", "y"), ("a", "x")] [] ?_ (fun _ => rfl)
  intro p
  by_cases h1 : p = "a" <;> by_cases h2 : p = "b" <;>
    simp_all [lookupKV]

/-- Counterexample for C1: the path a is present only in the local snapshot,
but its content is the empty string, which compares equal to the default
read for the absent remote side, so diff_trees emits no local-only record
at all. -/
theorem diff_trees_local_only_empty_no_record :
    lookupKV [("a", "")] "a" = some "" ∧
    keysOf ([] : Snapshot) = [] ∧
    diff_trees [("a", "")] [] = [] := by
  refine ⟨rfl, rfl, ?_⟩
  rfl

/-- C1 (amended): diff_trees is the per-path record map over the sorted,
duplicate-free union of the key sets, so each path contributes at most one
record, where: a path present only in local yields exactly one local-only
record unless its content is the empty string (absent paths read as the
empty string, so an empty-content one-sided path yields no record), a path
present only in remote symmetrically yields one remote-only record unless
its content is empty, a path present in both with differing content yields
exactly one non-empty unified-diff record, and a path with identical
content on both sides yields no record. -/
theorem diff_trees_record_cases (local_files remote_files : Snapshot) :
    (diff_trees local_files remote_files
      = (sortedPaths local_files remote_files).filterMap
          (recordFor local_files remote_files))
    ∧ (sortedPaths local_files remote_files).Nodup
    ∧ ∀ path,
        (∀ cl, lookupKV local_files path = some cl →
          lookupKV remote_files path = none →
          recordFor local_files remote_files path
            = if cl = "" then none
              else some ("  + " ++ path ++ " (local only)"))
        ∧ (∀ cr, lookupKV remote_files path = some cr →
          lookupKV local_files path = none →
          recordFor local_files remote_files path
            = if cr = "" then none
              else some ("  - " ++ path ++ " (remote only)"))
        ∧ (∀ cl cr, lookupKV local_files path = some cl →
          lookupKV remote_files path = some cr → cl ≠ cr →
          ∃ d, recordFor local_files remote_files path = some d ∧ d ≠ ""
            ∧ d = joinLines (unified_diff (splitlinesKeepends cr)
                (splitlinesKeepends cl) ("remote/" ++ path) ("local/" ++ path)))
        ∧ (lookupKV local_files path = lookupKV remote_files path →
          recordFor local_files remote_files path = none) := by
  refine ⟨diff_trees_eq_filterMap _ _, sortedPaths_nodup _ _, ?_⟩
  intro path
  refine ⟨?_, ?_, ?_, ?_⟩
  · intro cl hcl hr
    unfold recordFor
    rw [hcl, hr]
    by_cases hempty : cl = ""
    · simp [hempty]
    · simp [hempty]
  · intro cr hcr hl
    unfold recordFor
    rw [hcr, hl]
    by_cases hempty : cr = ""
    · simp [hempty]
    · simp [hempty, Ne.symm hempty]
  · intro cl cr hcl hcr hne
    have hsplit : splitlinesKeepends cr ≠ splitlinesKeepends cl := by
      intro hcontra
      exact hne (splitlinesKeepends_injective cr cl hcontra).symm
    have hdiff : unified_diff (splitlinesKeepends cr) (splitlinesKeepends cl)
        ("remote/" ++ path) ("local/" ++ path)
        = ("--- " ++ ("remote/" ++ path) ++ "\n")
          :: ("+++ " ++ ("local/" ++ path) ++ "\n")
          :: ((splitlinesKeepends cr).map (fun l => "-" ++ l)
              ++ (splitlinesKeepends cl).map (fun l => "+" ++ l)) := by
      unfold unified_diff
      rw [if_neg hsplit]
    have hne2 : joinLines (unified_diff (splitlinesKeepends cr)
        (splitlinesKeepends cl) ("remote/" ++ path) ("local/" ++ path)) ≠ "" := by
      rw [hdiff]
      apply joinLines_cons_ne_empty
      intro habs
      have := congrArg String.data habs
      rw [String.data_append, String.data_append] at this
      simp at this
    refine ⟨_, ?_, hne2, rfl⟩
    unfold recordFor
    rw [hcl, hcr]
    simp only [Option.getD_some]
    rw [if_neg hne, if_neg (by simp), if_neg (by simp)]
    rw [if_neg hne2]
  · intro heq
    unfold recordFor
    rw [heq]
    simp

/-- Witness for C1 (amended): a concrete one-sided path with non-empty
content yields the local-only record, and a concrete two-sided difference
yields a non-empty diff record. -/
theorem diff_trees_record_cases_witness :
    recordFor [("a", "x")] [] "a" = some ("  + " ++ "a" ++ " (local only)")
    ∧ ∃ d, recordFor [("f", "new")] [("f", "old")] "f" = some d ∧ d ≠ "" := by
  constructor
  · have h := ((diff_trees_record_cases [("a", "x")] []).2.2 "a").1 "x" rfl rfl
    rw [if_neg (by decide)] at h
    exact h
  · obtain ⟨d, hd, hdne, -⟩ :=
      (((diff_trees_record_cases [("f", "new")] [("f", "old")]).2.2 "f").2.2.1
        "new" "old" rfl rfl (by decide))
    exact ⟨d, hd, hdne⟩

/-! ## The install command staging cleanup (cli.py lines 383 to 421) -/

/-- Control flow of one environment-target iteration of the install command
after prepare_staging has returned, modelled from cli.py lines 383 to 421.
The inputs are the garnish list (the staged sync paths that exist in the
staging area), the dry-run flag, and the outcomes of the adapter clean and
deploy calls, an error meaning the call raised.  The result records the
exception that propagates out of the iteration, if any, and whether
shutil.rmtree was run on the staging directory before control left the
iteration.  The code runs rmtree on the nothing-to-plate path, on the
dry-run path and after a successful deploy, but has no try or finally
around the adapter calls. -/
def installAfterStaging (garnish : List String) (dry_run : Bool)
    (cleanOutcome : Except String Unit)
    (deployOutcome : Except String (List String)) :
    Option String × Bool :=
  if garnish.isEmpty then (none, true)
  else if dry_run then (none, true)
  else
    match cleanOutcome with
    | .error e => (some e, false)
    | .ok _ =>
      match deployOutcome with
      | .error e => (some e, false)
      | .ok _ => (none, true)

/-- C4: the staging directory is removed on the nothing-to-deploy, dry-run
and success exits, but when the adapter clean or deploy call raises, the
exception propagates with the staging directory still in place, since
cli.py wraps no try or finally around the adapter calls. -/
theorem install_staging_leak_on_adapter_error :
    installAfterStaging ["CLAUDE.md"] false (.error "clean failed") (.ok [])
      = (some "clean failed", false)
    ∧ installAfterStaging ["CLAUDE.md"] false (.ok ()) (.error "deploy failed")
      = (some "deploy failed", false)
    ∧ installAfterStaging [] false (.ok ()) (.ok []) = (none, true)
    ∧ installAfterStaging ["CLAUDE.md"] true (.ok ()) (.ok []) = (none, true)
    ∧ installAfterStaging ["CLAUDE.md"] false (.ok ()) (.ok ["CLAUDE.md"])
      = (none, true) :=
  ⟨rfl, rfl, rfl, rfl, rfl⟩

/-! ## The modelled filesystem

A filesystem tree for the staging, deploy and clean operations.  A file
holds its content as read by Path.read_text: some text when the read
succeeds and none when it raises UnicodeDecodeError or PermissionError
(binary or unreadable content).  A symlink holds its raw target, already
split into path components and interpreted relative to the root of the
tree that contains the link (relative targets that climb out of the tree
and intermediate symlinks on the way to a path are outside the model; the
theorems below only use trees where this does not matter).  Directory
entry lists are compared up to order by keeping them sorted by name;
well-formedness of a tree is the wf predicate below. -/

inductive Entry : Type where
  | file (content : Option String)
  | symlink (target : List String)
  | dir (entries : List (String × Entry))
deriving Repr

/-- First binding for a name in a directory entry list. -/
def findEntry (k : String) : List (String × Entry) → Option Entry
  | [] => none
  | (k1, e) :: rest => if k = k1 then some e else findEntry k rest

/-- Remove the binding for a name from a directory entry list. -/
def removeKey (k : String) : List (String × Entry) → List (String × Entry)
  | [] => []
  | (k1, e) :: rest => if k = k1 then rest else (k1, e) :: removeKey k rest

/-- Insert or replace a binding, keeping a sorted entry list sorted. -/
def orderedInsert (k : String) (v : Entry) :
    List (String × Entry) → List (String × Entry)
  | [] => [(k, v)]
  | (k1, e) :: rest =>
    if k < k1 then (k, v) :: (k1, e) :: rest
    else if k = k1 then (k, v) :: rest
    else (k1, e) :: orderedInsert k v rest

/-- Walk a path through the tree without following symlinks: the entry
sitting at the path, if every intermediate component is a directory. -/
def Entry.lookup : Entry → List String → Option Entry
  | e, [] => some e
  | .dir es, k :: rest =>
    match findEntry k es with
    | some e => e.lookup rest
    | none => none
  | _, _ :: _ => none

/-- Linux follows at most 40 links in a resolution chain; a longer chain
makes the os calls fail, which Path.exists reports as absence. -/
def maxLinkDepth : Nat := 40

/-- Resolve the entry at a path, following a chain of symlinks at the
final component, with fuel bounding the chain length. -/
def Entry.resolveAt (root : Entry) : Nat → List String → Option Entry
  | 0, _ => none
  | fuel + 1, p =>
    match root.lookup p with
    | some (.symlink t) => root.resolveAt fuel t
    | some e => some e
    | none => none

/-- Path.exists(): follows symlinks, so a broken symlink does not exist. -/
def Entry.existsAt (root : Entry) (p : List String) : Bool :=
  (root.resolveAt maxLinkDepth p).isSome

/-- Path.is_dir(): follows symlinks. -/
def Entry.isDirAt (root : Entry) (p : List String) : Bool :=
  match root.resolveAt maxLinkDepth p with
  | some (.dir _) => true
  | _ => false

/-- Path.is_file(): follows symlinks. -/
def Entry.isFileAt (root : Entry) (p : List String) : Bool :=
  match root.resolveAt maxLinkDepth p with
  | some (.file _) => true
  | _ => false

/-- Path.is_symlink(): does not follow the link itself. -/
def Entry.isSymlinkAt (root : Entry) (p : List String) : Bool :=
  match root.lookup p with
  | some (.symlink _) => true
  | _ => false

/-- os.readlink: the raw target of the link at a path. -/
def Entry.readlinkAt (root : Entry) (p : List String) : List String :=
  match root.lookup p with
  | some (.symlink t) => t
  | _ => []

/-- Fresh chain of singleton directories ending in a value, as created by
mkdir(parents=True) followed by a copy. -/
def buildChain : List String → Entry → Entry
  | [], v => v
  | k :: rest, v => .dir [(k, buildChain rest v)]

/-- Write a value at a path, creating missing parent directories on the
way (mkdir(parents=True, exist_ok=True) followed by the copy) and
replacing whatever sat at the path before.  Walking through an existing
non-directory leaves the tree unchanged; on the real filesystem that
mkdir raises, and the flows verified below never reach that case. -/
def Entry.insertAt : Entry → List String → Entry → Entry
  | _, [], v => v
  | .dir es, k :: rest, v =>
    match findEntry k es with
    | some child =>
      if rest.isEmpty then .dir (orderedInsert k v es)
      else
        match child with
        | .dir ces => .dir (orderedInsert k ((Entry.dir ces).insertAt rest v) es)
        | _ => .dir es
    | none => .dir (orderedInsert k (buildChain rest v) es)
  | e, _ :: _, _ => e

/-- Delete the entry at a path, if present (shutil.rmtree for
directories, Path.unlink for files). -/
def Entry.removeAt : Entry → List String → Entry
  | .dir es, k :: rest =>
    if rest.isEmpty then .dir (removeKey k es)
    else
      match findEntry k es with
      | some child => .dir (orderedInsert k (child.removeAt rest) es)
      | none => .dir es
  | e, _ => e

/-- Strict sortedness by name of a directory entry list. -/
def entriesSortedKeys : List (String × Entry) → Bool
  | [] => true
  | [_] => true
  | (k1, _) :: (k2, e2) :: rest =>
    decide (k1 < k2) && entriesSortedKeys ((k2, e2) :: rest)

mutual

/-- Well-formedness: every directory entry list is strictly sorted by
name (the canonical representation of unordered on-disk directories). -/
def Entry.wf : Entry → Bool
  | .file _ => true
  | .symlink _ => true
  | .dir es => entriesSortedKeys es && wfList es

def wfList : List (String × Entry) → Bool
  | [] => true
  | (_, e) :: rest => e.wf && wfList rest

end

mutual

/-- No symlink anywhere in the tree. -/
def Entry.symlinkFree : Entry → Bool
  | .file _ => true
  | .symlink _ => false
  | .dir es => symlinkFreeList es

def symlinkFreeList : List (String × Entry) → Bool
  | [] => true
  | (_, e) :: rest => e.symlinkFree && symlinkFreeList rest

end

/-! ## prepare_staging and the copy helper (sync.py lines 14 to 72) -/

/-- Fuel for the nested symlink resolution performed while mirroring a
directory; it plays the role of the Python recursion limit that bounds
shutil.copytree on pathological symlink structures. -/
def stageFuel : Nat := 1000

mutual

/-- The body of the copy helper in sync.py lines 52 to 72: mirror the
entries of a source directory, applying the per-entry symlink policy.
With resolve_symlinks false every symlink is recreated with its raw
target; with resolve_symlinks true a symlink is replaced by its resolved
content, a symlink to a directory by a deep copy with nested links
resolved in turn (shutil.copytree with default symlinks=False), and a
broken symlink is skipped.  root is the tree the link targets are
resolved against. -/
def stageEntries (root : Entry) (resolve_symlinks : Bool) :
    Nat → List (String × Entry) → List (String × Entry)
  | _, [] => []
  | fuel, (name, item) :: rest =>
    match stageItem root resolve_symlinks fuel item with
    | some e => (name, e) :: stageEntries root resolve_symlinks fuel rest
    | none => stageEntries root resolve_symlinks fuel rest
termination_by fuel es => (fuel, sizeOf es)

/-- How one directory entry is staged by the copy helper; none means the
entry is skipped (only broken symlinks under resolve_symlinks are). -/
def stageItem (root : Entry) (resolve_symlinks : Bool) :
    Nat → Entry → Option Entry
  | fuel, .symlink t =>
    if resolve_symlinks then
      match root.resolveAt maxLinkDepth t with
      | some (.dir es) =>
        match fuel with
        | 0 => none
        | f + 1 => some (.dir (stageEntries root resolve_symlinks f es))
      | some (.file c) => some (.file c)
      | _ => none
  else some (.symlink t)
  | fuel, .dir es => some (.dir (stageEntries root resolve_symlinks fuel es))
  | _, .file c => some (.file c)
termination_by fuel e => (fuel, sizeOf e)

end

/-- One iteration of the loop in prepare_staging (sync.py lines 26 to 47)
for one sync path sp, updating the staging tree:
with src = source_dir/sp,
skip when src.exists() is false (line 28); when src is a plain file,
copy it (line 45); when src is a symlink resolving to a non-directory,
either copy the resolved file (resolve_symlinks true, lines 35 to 41,
where the resolved target of a non-directory symlink is never a
directory, so shutil.copy2 runs) or recreate the symlink with the same
raw target (line 43); when src is a directory, or a symlink to a
directory (is_file and the non-directory-symlink test are both false and
is_dir is true), mirror it with the copy helper (line 47).  Creation
failures that shutil raises when overlapping sync paths collide in the
staging area are outside the model: writes are modelled as overwrites. -/
def stageOne (source_dir : Entry) (resolve_symlinks : Bool)
    (staging : Entry) (sp : List String) : Entry :=
  if source_dir.existsAt sp then
    match source_dir.lookup sp, source_dir.resolveAt maxLinkDepth sp with
    | some (.file c), _ => staging.insertAt sp (.file c)
    | some (.symlink _), some (.dir es) =>
      staging.insertAt sp (.dir (stageEntries source_dir resolve_symlinks stageFuel es))
    | some (.symlink t), some (.file c) =>
      if resolve_symlinks then staging.insertAt sp (.file c)
      else staging.insertAt sp (.symlink t)
    | some (.dir es), _ =>
      staging.insertAt sp (.dir (stageEntries source_dir resolve_symlinks stageFuel es))
    | _, _ => staging
  else staging

/-- prepare_staging (sync.py lines 14 to 49): copy the sync paths from
the source tree into a fresh staging tree. -/
def prepare_staging (source_dir : Entry) (sync_paths : List (List String))
    (resolve_symlinks : Bool) : Entry :=
  sync_paths.foldl (stageOne source_dir resolve_symlinks) (.dir [])

/-! ## collect_files (sync.py lines 75 to 98) -/

mutual

/-- Relative paths of the regular files below a directory entry list, in
tree order: the paths Path.rglob enumerates and is_file accepts.  The
Python code sorts the enumeration, which only fixes the insertion order
of distinct keys and never the resulting mapping, so the model keeps
tree order.  Symlinks are not descended into; the collect_files theorem
below restricts to symlink-free trees, where this is exact. -/
def filePaths : List (String × Entry) → List (List String)
  | [] => []
  | (name, e) :: rest => filePathsItem name e ++ filePaths rest

def filePathsItem (name : String) : Entry → List (List String)
  | .file _ => [[name]]
  | .symlink _ => []
  | .dir es => (filePaths es).map (fun r => name :: r)

end

/-- Path.read_text() as collect_files uses it: the text content on
success, and the binary sentinel when the read raises
UnicodeDecodeError or PermissionError (sync.py lines 86 to 89). -/
def collectValue : Option String → String
  | some c => c
  | none => "<binary>"

/-- collect_files (sync.py lines 75 to 98): walk the sync paths and
record every readable file under its path relative to base_dir, the
binary sentinel standing in for unreadable content. -/
def collect_files (base_dir : Entry) (sync_paths : List (List String)) :
    List (List String × String) :=
  sync_paths.foldl (fun files sp =>
    if base_dir.existsAt sp then
      if base_dir.isFileAt sp then
        match base_dir.resolveAt maxLinkDepth sp with
        | some (.file co) => dictInsert files sp (collectValue co)
        | _ => files
      else
        match base_dir.resolveAt maxLinkDepth sp with
        | some (.dir es) =>
          (filePaths es).foldl (fun fs r =>
            match (Entry.dir es).lookup r with
            | some (.file co) => dictInsert fs (sp ++ r) (collectValue co)
            | _ => fs) files
        | _ => files
    else files) []

/-! ## The local adapter (adapters/local.py lines 40 to 73) -/

/-- Base filename of a path, os.path.basename as shutil.copy2 uses it
when the destination is a directory. -/
def lastComponent : List String → String
  | [] => ""
  | [k] => k
  | _ :: k :: rest => lastComponent (k :: rest)

/-- shutil.copy2(src, dst) for a regular source file: when dst is an
existing directory the file is copied into it under the base filename of
src, otherwise dst itself is created or overwritten. -/
def copyFileToTarget (t : Entry) (sp : List String) (e : Entry) : Entry :=
  if t.isDirAt sp then t.insertAt (sp ++ [lastComponent sp]) e
  else t.insertAt sp e

/-- The body of the deploy loop (adapters/local.py lines 50 to 62) for
one sync path: skip when the staged path does not exist; for a staged
directory remove any existing destination and copy the staged subtree
wholesale (rmtree plus copytree); for a staged file create the parent
directories and run shutil.copy2; append the sync path to the deployed
list.  The shutil errors raised when the destination shape clashes with
the staged shape (rmtree on a plain file, mkdir through a plain file)
are outside the model; the deploy theorems below carry hypotheses that
keep the runs inside the error-free fragment. -/
def deployStep (staging_dir : Entry) (acc : Entry × List (List String))
    (sp : List String) : Entry × List (List String) :=
  if staging_dir.existsAt sp then
    if staging_dir.isDirAt sp then
      let sub := (staging_dir.resolveAt maxLinkDepth sp).getD (.dir [])
      let t1 := if acc.1.existsAt sp then acc.1.removeAt sp else acc.1
      (t1.insertAt sp sub, acc.2 ++ [sp])
    else
      let e := (staging_dir.resolveAt maxLinkDepth sp).getD (.file none)
      (copyFileToTarget acc.1 sp e, acc.2 ++ [sp])
  else acc

/-- LocalEnvironment.deploy (adapters/local.py lines 40 to 64): create
the target directory if absent (target.mkdir(parents=True,
exist_ok=True), modelled by starting from an empty directory when the
target state is none), then run the deploy loop; returns the new target
state together with the deployed sync paths in input order. -/
def LocalEnvironment.deploy (staging_dir : Entry) (target_dir : Option Entry)
    (sync_paths : List (List String)) : Entry × List (List String) :=
  let target := target_dir.getD (.dir [])
  sync_paths.foldl (deployStep staging_dir) (target, [])

/-- LocalEnvironment.clean (adapters/local.py lines 66 to 73): for each
sync path, shutil.rmtree when it is a directory, Path.unlink when it
otherwise exists, and a silent skip when it does not. -/
def LocalEnvironment.clean (target_dir : Entry)
    (sync_paths : List (List String)) : Entry :=
  sync_paths.foldl (fun t sp =>
    if t.isDirAt sp then t.removeAt sp
    else if t.existsAt sp then t.removeAt sp
    else t) target_dir

/-! ## Symlink staging behaviour (claim C3) -/

/-- Counterexample for C3: a sync path that is itself a broken symlink is
skipped entirely by prepare_staging, because the existence check on
sync.py line 28 follows symlinks and reports a broken link as absent;
nothing is staged for it, rather than a symlink being recreated. -/
theorem prepare_staging_broken_symlink_skipped :
    Entry.isSymlinkAt (.dir [("link", .symlink ["missing"])]) ["link"] = true
    ∧ prepare_staging (.dir [("link", .symlink ["missing"])]) [["link"]] false
        = .dir []
    ∧ (prepare_staging (.dir [("link", .symlink ["missing"])])
        [["link"]] false).lookup ["link"] = none :=
  ⟨rfl, rfl, rfl⟩

/-- C3 (amended): with resolveSymlinks false, a sync path that is a
symlink to an existing non-directory target is recreated in the staging
area as a symlink with the same raw target; a sync path that is itself a
broken symlink is skipped, because the existence check follows links; a
symlink nested inside a staged directory is recreated with the same
target string whether or not its target exists; and a sync path that is
a symlink to a directory is mirrored as a real directory rather than
recreated as a symlink. -/
theorem stage_symlink_cases :
    (∀ (source_dir st : Entry) (sp t : List String) (c : Option String),
      source_dir.lookup sp = some (.symlink t) →
      source_dir.resolveAt maxLinkDepth sp = some (.file c) →
      stageOne source_dir false st sp = st.insertAt sp (.symlink t))
    ∧ (∀ (source_dir st : Entry) (sp t : List String),
      source_dir.lookup sp = some (.symlink t) →
      source_dir.resolveAt maxLinkDepth sp = none →
      stageOne source_dir false st sp = st)
    ∧ (∀ (root : Entry) (t : List String) (fuel : Nat),
      stageItem root false fuel (.symlink t) = some (.symlink t))
    ∧ (∀ (source_dir : Entry) (sp t : List String) (c : Option String),
      source_dir.lookup sp = some (.symlink t) →
      source_dir.resolveAt maxLinkDepth sp = some (.file c) →
      prepare_staging source_dir [sp] false
        = (Entry.dir []).insertAt sp (.symlink t))
    ∧ (∀ (source_dir st : Entry) (sp t : List String)
        (es : List (String × Entry)),
      source_dir.lookup sp = some (.symlink t) →
      source_dir.resolveAt maxLinkDepth sp = some (.dir es) →
      stageOne source_dir false st sp
        = st.insertAt sp (.dir (stageEntries source_dir false stageFuel es))) := by
  refine ⟨?_, ?_, ?_, ?_, ?_⟩
  · intro source_dir st sp t c h1 h2
    unfold stageOne
    rw [show source_dir.existsAt sp = true by
      simp [Entry.existsAt, h2]]
    simp only [if_true, h1, h2, if_neg (by simp : ¬ false = true)]
  · intro source_dir st sp t h1 h2
    unfold stageOne
    rw [show source_dir.existsAt sp = false by
      simp [Entry.existsAt, h2]]
    simp
  · intro root t fuel
    simp [stageItem]
  · intro source_dir sp t c h1 h2
    unfold prepare_staging
    simp only [List.foldl_cons, List.foldl_nil]
    unfold stageOne
    rw [show source_dir.existsAt sp = true by
      simp [Entry.existsAt, h2]]
    simp only [if_true, h1, h2]
    simp
  · intro source_dir st sp t es h1 h2
    unfold stageOne
    rw [show source_dir.existsAt sp = true by
      simp [Entry.existsAt, h2]]
    simp only [if_true, h1, h2]

/-- Witness for C3 (amended): a concrete symlink to an existing file is
staged as a symlink with the same target. -/
theorem stage_symlink_cases_witness :
    prepare_staging
      (.dir [("file1", .file (some "x")), ("link", .symlink ["file1"])])
      [["link"]] false
      = .dir [("link", .symlink ["file1"])] := by
  have h := stage_symlink_cases.2.2.2.1
    (.dir [("file1", .file (some "x")), ("link", .symlink ["file1"])])
    ["link"] ["file1"] (some "x") rfl rfl
  rw [h]
  rfl

/-! ## Entry-list lemmas -/

theorem mem_of_findEntry {k : String} {v : Entry} :
    ∀ {es : List (String × Entry)}, findEntry k es = some v → (k, v) ∈ es := by
  intro es
  induction es with
  | nil => intro h; simp [findEntry] at h
  | cons kv rest ih =>
    obtain ⟨k1, e1⟩ := kv
    intro h
    by_cases hk : k = k1
    · subst hk
      simp [findEntry] at h
      simp [h]
    · rw [findEntry, if_neg hk] at h
      exact List.mem_cons_of_mem _ (ih h)

theorem findEntry_eq_none {k : String} :
    ∀ {es : List (String × Entry)}, (∀ kv ∈ es, k ≠ kv.1) →
    findEntry k es = none := by
  intro es
  induction es with
  | nil => intro; rfl
  | cons kv rest ih =>
    obtain ⟨k1, e1⟩ := kv
    intro h
    rw [findEntry, if_neg (h (k1, e1) (by simp))]
    exact ih fun kv hkv => h kv (List.mem_cons_of_mem _ hkv)

theorem mem_orderedInsert {k : String} {v : Entry} {kv : String × Entry} :
    ∀ {es : List (String × Entry)}, kv ∈ orderedInsert k v es →
    kv = (k, v) ∨ kv ∈ es := by
  intro es
  induction es with
  | nil => intro h; simp [orderedInsert] at h; simp [h]
  | cons kv1 rest ih =>
    obtain ⟨k1, e1⟩ := kv1
    intro h
    rw [orderedInsert] at h
    by_cases h1 : k < k1
    · rw [if_pos h1] at h
      simp only [List.mem_cons] at h
      rcases h with h | h | h <;> simp [h]
    · rw [if_neg h1] at h
      by_cases h2 : k = k1
      · rw [if_pos h2] at h
        simp only [List.mem_cons] at h
        rcases h with h | h <;> simp [h]
      · rw [if_neg h2] at h
        simp only [List.mem_cons] at h
        rcases h with h | h
        · simp [h]
        · rcases ih h with h3 | h3 <;> simp [h3]

theorem mem_removeKey {k : String} {kv : Prod String Entry} :
    ∀ {es : List (String × Entry)}, kv ∈ removeKey k es → kv ∈ es := by
  intro es
  induction es with
  | nil => intro h; simp [removeKey] at h
  | cons kv1 rest ih =>
    obtain ⟨k1, e1⟩ := kv1
    intro h
    rw [removeKey] at h
    by_cases h1 : k = k1
    · rw [if_pos h1] at h
      exact List.mem_cons_of_mem _ h
    · rw [if_neg h1] at h
      simp only [List.mem_cons] at h
      rcases h with h | h
      · simp [h]
      · exact List.mem_cons_of_mem _ (ih h)

theorem sortedCons {k1 : String} {e1 : Entry} {rest : List (String × Entry)} :
    entriesSortedKeys ((k1, e1) :: rest) = true
      ↔ entriesSortedKeys rest = true ∧ ∀ kv ∈ rest, k1 < kv.1 := by
  induction rest generalizing k1 e1 with
  | nil => simp [entriesSortedKeys]
  | cons kv2 rest2 ih =>
    obtain ⟨k2, e2⟩ := kv2
    rw [entriesSortedKeys]
    simp only [Bool.and_eq_true, decide_eq_true_eq]
    constructor
    · rintro ⟨hlt, hs⟩
      refine ⟨hs, ?_⟩
      intro kv hkv
      rcases List.mem_cons.mp hkv with h | h
      · subst h; exact hlt
      · exact lt_trans hlt ((ih.mp hs).2 kv h)
    · rintro ⟨hs, hall⟩
      exact ⟨hall (k2, e2) (by simp), hs⟩

theorem findEntry_orderedInsert_self (k : String) (v : Entry) :
    ∀ (es : List (String × Entry)),
    findEntry k (orderedInsert k v es) = some v := by
  intro es
  induction es with
  | nil => simp [orderedInsert, findEntry]
  | cons kv1 rest ih =>
    obtain ⟨k1, e1⟩ := kv1
    rw [orderedInsert]
    by_cases h1 : k < k1
    · rw [if_pos h1, findEntry, if_pos rfl]
    · rw [if_neg h1]
      by_cases h2 : k = k1
      · rw [if_pos h2, findEntry, if_pos rfl]
      · rw [if_neg h2, findEntry, if_neg h2]
        exact ih

theorem findEntry_orderedInsert_ne {k k2 : String} (v : Entry)
    (hne : k2 ≠ k) :
    ∀ (es : List (String × Entry)),
    findEntry k2 (orderedInsert k v es) = findEntry k2 es := by
  intro es
  induction es with
  | nil => simp [orderedInsert, findEntry, if_neg hne]
  | cons kv1 rest ih =>
    obtain ⟨k1, e1⟩ := kv1
    rw [orderedInsert]
    by_cases h1 : k < k1
    · rw [if_pos h1, findEntry, if_neg hne]
    · rw [if_neg h1]
      by_cases h2 : k = k1
      · subst h2
        rw [if_pos rfl, findEntry, if_neg hne, findEntry, if_neg hne]
      · rw [if_neg h2, findEntry, findEntry]
        by_cases h3 : k2 = k1
        · rw [if_pos h3, if_pos h3]
        · rw [if_neg h3, if_neg h3]
          exact ih

theorem findEntry_removeKey_ne {k k2 : String} (hne : k2 ≠ k) :
    ∀ (es : List (String × Entry)),
    findEntry k2 (removeKey k es) = findEntry k2 es := by
  intro es
  induction es with
  | nil => simp [removeKey]
  | cons kv1 rest ih =>
    obtain ⟨k1, e1⟩ := kv1
    rw [removeKey]
    by_cases h1 : k = k1
    · subst h1
      rw [if_pos rfl, findEntry, if_neg hne]
    · rw [if_neg h1, findEntry, findEntry]
      by_cases h3 : k2 = k1
      · rw [if_pos h3, if_pos h3]
      · rw [if_neg h3, if_neg h3]
        exact ih

theorem findEntry_removeKey_self {k : String} :
    ∀ {es : List (String × Entry)}, entriesSortedKeys es = true →
    findEntry k (removeKey k es) = none := by
  intro es
  induction es with
  | nil => intro; rfl
  | cons kv1 rest ih =>
    obtain ⟨k1, e1⟩ := kv1
    intro hs
    obtain ⟨hrest, hall⟩ := sortedCons.mp hs
    rw [removeKey]
    by_cases h1 : k = k1
    · subst h1
      rw [if_pos rfl]
      exact findEntry_eq_none fun kv hkv => ne_of_lt (hall kv hkv)
    · rw [if_neg h1, findEntry, if_neg h1]
      exact ih hrest

theorem orderedInsert_of_findEntry {k : String} {v : Entry} :
    ∀ {es : List (String × Entry)}, entriesSortedKeys es = true →
    findEntry k es = some v → orderedInsert k v es = es := by
  intro es
  induction es with
  | nil => intro _ h; simp [findEntry] at h
  | cons kv1 rest ih =>
    obtain ⟨k1, e1⟩ := kv1
    intro hs hf
    obtain ⟨hrest, hall⟩ := sortedCons.mp hs
    rw [orderedInsert]
    by_cases h2 : k = k1
    · subst h2
      rw [findEntry, if_pos rfl] at hf
      rw [if_neg (lt_irrefl k), if_pos rfl]
      injection hf with hv
      rw [hv]
    · rw [findEntry, if_neg h2] at hf
      have hmem : (k, v) ∈ rest := mem_of_findEntry hf
      have hk1k : k1 < k := hall (k, v) hmem
      rw [if_neg (asymm hk1k), if_neg h2, ih hrest hf]

theorem orderedInsert_removeKey {k : String} {v : Entry} :
    ∀ {es : List (String × Entry)}, entriesSortedKeys es = true →
    findEntry k es = some v → orderedInsert k v (removeKey k es) = es := by
  intro es
  induction es with
  | nil => intro _ h; simp [findEntry] at h
  | cons kv1 rest ih =>
    obtain ⟨k1, e1⟩ := kv1
    intro hs hf
    obtain ⟨hrest, hall⟩ := sortedCons.mp hs
    rw [removeKey]
    by_cases h2 : k = k1
    · subst h2
      rw [findEntry, if_pos rfl] at hf
      rw [if_pos rfl]
      cases hf
      rcases rest with _ | ⟨⟨k2, e2⟩, rest2⟩
      · rfl
      · have hk2 : k < k2 := hall (k2, e2) (by simp)
        rw [orderedInsert, if_pos hk2]
    · rw [findEntry, if_neg h2] at hf
      have hmem : (k, v) ∈ rest := mem_of_findEntry hf
      have hk1k : k1 < k := hall (k, v) hmem
      rw [if_neg h2, orderedInsert, if_neg (asymm hk1k), if_neg h2,
        ih hrest hf]

theorem orderedInsert_orderedInsert (k : String) (v1 v2 : Entry) :
    ∀ (es : List (String × Entry)),
    orderedInsert k v2 (orderedInsert k v1 es) = orderedInsert k v2 es := by
  intro es
  induction es with
  | nil => simp [orderedInsert, lt_irrefl]
  | cons kv1 rest ih =>
    obtain ⟨k1, e1⟩ := kv1
    rw [orderedInsert]
    by_cases h1 : k < k1
    · rw [if_pos h1]
      rw [orderedInsert, if_neg (lt_irrefl k), if_pos rfl,
        orderedInsert, if_pos h1]
    · rw [if_neg h1]
      by_cases h2 : k = k1
      · rw [if_pos h2]
        rw [orderedInsert, if_neg (lt_irrefl k), if_pos rfl,
          orderedInsert, if_neg h1, if_pos h2]
      · rw [if_neg h2]
        rw [orderedInsert, if_neg h1, if_neg h2,
          orderedInsert, if_neg h1, if_neg h2, ih]

theorem entriesSortedKeys_orderedInsert {k : String} {v : Entry} :
    ∀ {es : List (String × Entry)}, entriesSortedKeys es = true →
    entriesSortedKeys (orderedInsert k v es) = true := by
  intro es
  induction es with
  | nil => intro; simp [orderedInsert, entriesSortedKeys]
  | cons kv1 rest ih =>
    obtain ⟨k1, e1⟩ := kv1
    intro hs
    obtain ⟨hrest, hall⟩ := sortedCons.mp hs
    rw [orderedInsert]
    by_cases h1 : k < k1
    · rw [if_pos h1]
      refine sortedCons.mpr ⟨hs, ?_⟩
      intro kv hkv
      rcases List.mem_cons.mp hkv with h | h
      · subst h; exact h1
      · exact lt_trans h1 (hall kv h)
    · rw [if_neg h1]
      by_cases h2 : k = k1
      · subst h2
        rw [if_pos rfl]
        exact sortedCons.mpr ⟨hrest, hall⟩
      · rw [if_neg h2]
        have hk1k : k1 < k := (not_lt.mp h1).lt_of_ne (Ne.symm h2)
        refine sortedCons.mpr ⟨ih hrest, ?_⟩
        intro kv hkv
        rcases mem_orderedInsert hkv with h | h
        · subst h; exact hk1k
        · exact hall kv h

theorem entriesSortedKeys_removeKey {k : String} :
    ∀ {es : List (String × Entry)}, entriesSortedKeys es = true →
    entriesSortedKeys (removeKey k es) = true := by
  intro es
  induction es with
  | nil => intro; rfl
  | cons kv1 rest ih =>
    obtain ⟨k1, e1⟩ := kv1
    intro hs
    obtain ⟨hrest, hall⟩ := sortedCons.mp hs
    rw [removeKey]
    by_cases h1 : k = k1
    · rw [if_pos h1]; exact hrest
    · rw [if_neg h1]
      exact sortedCons.mpr ⟨ih hrest, fun kv hkv => hall kv (mem_removeKey hkv)⟩

/-! ## Path relations and lookup lemmas -/

/-- The first path is the second or an ancestor of it. -/
def underPathB : List String → List String → Bool
  | [], _ => true
  | _ :: _, [] => false
  | a :: p, b :: q => a == b && underPathB p q

theorem lookup_append (r : List String) :
    ∀ (t : Entry) (p : List String),
    t.lookup (p ++ r) = (t.lookup p).bind (fun e => e.lookup r) := by
  intro t p
  induction p generalizing t with
  | nil => simp [Entry.lookup]
  | cons k p2 ih =>
    cases t with
    | file c => simp [Entry.lookup]
    | symlink s => simp [Entry.lookup]
    | dir es =>
      rw [List.cons_append, Entry.lookup]
      cases hf : findEntry k es with
      | some child => rw [Entry.lookup, hf]; exact ih child
      | none => rw [Entry.lookup, hf]; rfl

theorem buildChain_lookup_append (v : Entry) (r : List String) :
    ∀ (p : List String), (buildChain p v).lookup (p ++ r) = v.lookup r := by
  intro p
  induction p with
  | nil => rfl
  | cons k p2 ih =>
    rw [buildChain, List.cons_append, Entry.lookup]
    rw [show findEntry k [(k, buildChain p2 v)] = some (buildChain p2 v) from by
      simp [findEntry]]
    exact ih

theorem buildChain_lookup_other (v : Entry) :
    ∀ (p q : List String), underPathB p q = false → underPathB q p = false →
    (buildChain p v).lookup q = none := by
  intro p
  induction p with
  | nil => intro q h1 _; simp [underPathB] at h1
  | cons k p2 ih =>
    intro q h1 h2
    cases q with
    | nil => simp [underPathB] at h2
    | cons b q2 =>
      rw [buildChain, Entry.lookup]
      by_cases hkb : b = k
      · subst hkb
        rw [underPathB] at h1 h2
        simp only [beq_self_eq_true, Bool.true_and] at h1 h2
        rw [show findEntry b [(b, buildChain p2 v)] = some (buildChain p2 v)
          from by simp [findEntry]]
        exact ih q2 h1 h2
      · rw [show findEntry b [(k, buildChain p2 v)] = none from by
          simp [findEntry, hkb]]

theorem buildChain_lookup_within (v : Entry) (r : List String) (hr : r ≠ []) :
    ∀ (q : List String),
    ∃ es2, (buildChain (q ++ r) v).lookup q = some (.dir es2) := by
  intro q
  induction q with
  | nil =>
    rcases r with _ | ⟨k, r2⟩
    · exact absurd rfl hr
    · exact ⟨[(k, buildChain r2 v)], rfl⟩
  | cons b q2 ih =>
    rw [List.cons_append, buildChain, Entry.lookup]
    rw [show findEntry b [(b, buildChain (q2 ++ r) v)]
      = some (buildChain (q2 ++ r) v) from by simp [findEntry]]
    exact ih

/-! ## Well-formedness and symlink-freedom plumbing -/

theorem wfList_findEntry {k : String} {e : Entry} :
    ∀ {es : List (String × Entry)}, wfList es = true →
    findEntry k es = some e → e.wf = true := by
  intro es
  induction es with
  | nil => intro _ h; simp [findEntry] at h
  | cons kv1 rest ih =>
    obtain ⟨k1, e1⟩ := kv1
    intro hw hf
    rw [wfList, Bool.and_eq_true] at hw
    rw [findEntry] at hf
    by_cases h1 : k = k1
    · rw [if_pos h1] at hf
      injection hf with hf
      rw [← hf]; exact hw.1
    · rw [if_neg h1] at hf
      exact ih hw.2 hf

theorem wfList_orderedInsert {k : String} {v : Entry} :
    ∀ {es : List (String × Entry)}, wfList es = true → v.wf = true →
    wfList (orderedInsert k v es) = true := by
  intro es
  induction es with
  | nil => intro _ hv; simp [orderedInsert, wfList, hv]
  | cons kv1 rest ih =>
    obtain ⟨k1, e1⟩ := kv1
    intro hw hv
    rw [wfList, Bool.and_eq_true] at hw
    rw [orderedInsert]
    by_cases h1 : k < k1
    · rw [if_pos h1, wfList, wfList]
      simp [hv, hw.1, hw.2]
    · rw [if_neg h1]
      by_cases h2 : k = k1
      · rw [if_pos h2, wfList]
        simp [hv, hw.2]
      · rw [if_neg h2, wfList]
        simp [hw.1, ih hw.2 hv]

theorem wfList_removeKey {k : String} :
    ∀ {es : List (String × Entry)}, wfList es = true →
    wfList (removeKey k es) = true := by
  intro es
  induction es with
  | nil => intro; rfl
  | cons kv1 rest ih =>
    obtain ⟨k1, e1⟩ := kv1
    intro hw
    rw [wfList, Bool.and_eq_true] at hw
    rw [removeKey]
    by_cases h1 : k = k1
    · rw [if_pos h1]; exact hw.2
    · rw [if_neg h1, wfList]
      simp [hw.1, ih hw.2]

theorem wf_dir_parts {es : List (String × Entry)}
    (h : (Entry.dir es).wf = true) :
    entriesSortedKeys es = true ∧ wfList es = true := by
  rw [Entry.wf, Bool.and_eq_true] at h
  exact h

theorem wf_dir_intro {es : List (String × Entry)}
    (h1 : entriesSortedKeys es = true) (h2 : wfList es = true) :
    (Entry.dir es).wf = true := by
  rw [Entry.wf, Bool.and_eq_true]
  exact ⟨h1, h2⟩

theorem buildChain_wf {v : Entry} (hv : v.wf = true) :
    ∀ (p : List String), (buildChain p v).wf = true := by
  intro p
  induction p with
  | nil => exact hv
  | cons k p2 ih =>
    rw [buildChain]
    exact wf_dir_intro (by rfl) (by rw [wfList, wfList]; simp [ih])

theorem symlinkFreeList_findEntry {k : String} {e : Entry} :
    ∀ {es : List (String × Entry)}, symlinkFreeList es = true →
    findEntry k es = some e → e.symlinkFree = true := by
  intro es
  induction es with
  | nil => intro _ h; simp [findEntry] at h
  | cons kv1 rest ih =>
    obtain ⟨k1, e1⟩ := kv1
    intro hw hf
    rw [symlinkFreeList, Bool.and_eq_true] at hw
    rw [findEntry] at hf
    by_cases h1 : k = k1
    · rw [if_pos h1] at hf
      injection hf with hf
      rw [← hf]; exact hw.1
    · rw [if_neg h1] at hf
      exact ih hw.2 hf

theorem symlinkFreeList_orderedInsert {k : String} {v : Entry} :
    ∀ {es : List (String × Entry)}, symlinkFreeList es = true →
    v.symlinkFree = true → symlinkFreeList (orderedInsert k v es) = true := by
  intro es
  induction es with
  | nil => intro _ hv; simp [orderedInsert, symlinkFreeList, hv]
  | cons kv1 rest ih =>
    obtain ⟨k1, e1⟩ := kv1
    intro hw hv
    rw [symlinkFreeList, Bool.and_eq_true] at hw
    rw [orderedInsert]
    by_cases h1 : k < k1
    · rw [if_pos h1, symlinkFreeList, symlinkFreeList]
      simp [hv, hw.1, hw.2]
    · rw [if_neg h1]
      by_cases h2 : k = k1
      · rw [if_pos h2, symlinkFreeList]
        simp [hv, hw.2]
      · rw [if_neg h2, symlinkFreeList]
        simp [hw.1, ih hw.2 hv]

theorem symlinkFreeList_removeKey {k : String} :
    ∀ {es : List (String × Entry)}, symlinkFreeList es = true →
    symlinkFreeList (removeKey k es) = true := by
  intro es
  induction es with
  | nil => intro; rfl
  | cons kv1 rest ih =>
    obtain ⟨k1, e1⟩ := kv1
    intro hw
    rw [symlinkFreeList, Bool.and_eq_true] at hw
    rw [removeKey]
    by_cases h1 : k = k1
    · rw [if_pos h1]; exact hw.2
    · rw [if_neg h1, symlinkFreeList]
      simp [hw.1, ih hw.2]

theorem buildChain_symlinkFree {v : Entry} (hv : v.symlinkFree = true) :
    ∀ (p : List String), (buildChain p v).symlinkFree = true := by
  intro p
  induction p with
  | nil => exact hv
  | cons k p2 ih =>
    rw [buildChain, Entry.symlinkFree, symlinkFreeList, symlinkFreeList]
    simp [ih]

theorem symlinkFree_lookup {e : Entry} :
    ∀ {t : Entry} {p : List String}, t.symlinkFree = true →
    t.lookup p = some e → e.symlinkFree = true := by
  intro t p
  induction p generalizing t with
  | nil => intro ht h; rw [Entry.lookup] at h; injection h with h; rw [← h]; exact ht
  | cons k p2 ih =>
    intro ht h
    cases t with
    | file c => simp [Entry.lookup] at h
    | symlink s => simp [Entry.lookup] at h
    | dir es =>
      rw [Entry.lookup] at h
      cases hf : findEntry k es with
      | none => rw [hf] at h; simp at h
      | some child =>
        rw [hf] at h
        exact ih (symlinkFreeList_findEntry ht hf) h

/-- On a symlink-free tree the resolving lookups coincide with the plain
lookup. -/
theorem resolveAt_eq_lookup {t : Entry} (ht : t.symlinkFree = true)
    (fuel : Nat) (p : List String) :
    t.resolveAt (fuel + 1) p = t.lookup p := by
  rw [Entry.resolveAt]
  cases h : t.lookup p with
  | none => rfl
  | some e =>
    cases e with
    | file c => rfl
    | dir es => rfl
    | symlink s =>
      have := symlinkFree_lookup ht h
      simp [Entry.symlinkFree] at this

theorem existsAt_eq_lookup {t : Entry} (ht : t.symlinkFree = true)
    (p : List String) : t.existsAt p = (t.lookup p).isSome := by
  rw [Entry.existsAt, show maxLinkDepth = 39 + 1 from rfl,
    resolveAt_eq_lookup ht]

theorem isDirAt_eq_lookup {t : Entry} (ht : t.symlinkFree = true)
    (p : List String) :
    t.isDirAt p = (match t.lookup p with
      | some (.dir _) => true
      | _ => false) := by
  rw [Entry.isDirAt, show maxLinkDepth = 39 + 1 from rfl,
    resolveAt_eq_lookup ht]

/-! ## Branch equations for lookup, insertAt and removeAt -/

theorem lookup_nil (t : Entry) : t.lookup [] = some t := by cases t <;> rfl

theorem lookup_file (c : Option String) (k : String) (rest : List String) :
    (Entry.file c).lookup (k :: rest) = none := rfl

theorem lookup_symlink (s : List String) (k : String) (rest : List String) :
    (Entry.symlink s).lookup (k :: rest) = none := rfl

theorem lookup_dir_found {es : List (String × Entry)} {k : String}
    {child : Entry} (hf : findEntry k es = some child) (rest : List String) :
    (Entry.dir es).lookup (k :: rest) = child.lookup rest := by
  simp [Entry.lookup, hf]

theorem lookup_dir_none {es : List (String × Entry)} {k : String}
    (hf : findEntry k es = none) (rest : List String) :
    (Entry.dir es).lookup (k :: rest) = none := by
  simp [Entry.lookup, hf]

theorem insertAt_nil (t v : Entry) : t.insertAt [] v = v := by cases t <;> rfl

theorem insertAt_file (c : Option String) (k : String) (p2 : List String)
    (v : Entry) : (Entry.file c).insertAt (k :: p2) v = .file c := rfl

theorem insertAt_symlink (s : List String) (k : String) (p2 : List String)
    (v : Entry) : (Entry.symlink s).insertAt (k :: p2) v = .symlink s := rfl

theorem insertAt_dir_found_nil {es : List (String × Entry)} {k : String}
    {child : Entry} (hf : findEntry k es = some child) (v : Entry) :
    (Entry.dir es).insertAt [k] v = .dir (orderedInsert k v es) := by
  simp [Entry.insertAt, hf]

theorem insertAt_dir_found_dir {es ces : List (String × Entry)} {k : String}
    {p2 : List String} (hf : findEntry k es = some (.dir ces))
    (hp : p2 ≠ []) (v : Entry) :
    (Entry.dir es).insertAt (k :: p2) v
      = .dir (orderedInsert k ((Entry.dir ces).insertAt p2 v) es) := by
  have : p2.isEmpty = false := by
    cases p2 with
    | nil => exact absurd rfl hp
    | cons a b => rfl
  simp [Entry.insertAt, hf, this]

theorem insertAt_dir_found_file {es : List (String × Entry)} {k : String}
    {c : Option String} {p2 : List String}
    (hf : findEntry k es = some (.file c)) (hp : p2 ≠ []) (v : Entry) :
    (Entry.dir es).insertAt (k :: p2) v = .dir es := by
  have : p2.isEmpty = false := by
    cases p2 with
    | nil => exact absurd rfl hp
    | cons a b => rfl
  simp [Entry.insertAt, hf, this]

theorem insertAt_dir_found_symlink {es : List (String × Entry)} {k : String}
    {s : List String} {p2 : List String}
    (hf : findEntry k es = some (.symlink s)) (hp : p2 ≠ []) (v : Entry) :
    (Entry.dir es).insertAt (k :: p2) v = .dir es := by
  have : p2.isEmpty = false := by
    cases p2 with
    | nil => exact absurd rfl hp
    | cons a b => rfl
  simp [Entry.insertAt, hf, this]

theorem insertAt_dir_none {es : List (String × Entry)} {k : String}
    (hf : findEntry k es = none) (p2 : List String) (v : Entry) :
    (Entry.dir es).insertAt (k :: p2) v
      = .dir (orderedInsert k (buildChain p2 v) es) := by
  simp [Entry.insertAt, hf]

theorem removeAt_nil (t : Entry) : t.removeAt [] = t := by
  cases t <;> rfl

theorem removeAt_file (c : Option String) (p : List String) :
    (Entry.file c).removeAt p = .file c := by
  cases p <;> rfl

theorem removeAt_symlink (s : List String) (p : List String) :
    (Entry.symlink s).removeAt p = .symlink s := by
  cases p <;> rfl

theorem removeAt_dir_single (es : List (String × Entry)) (k : String) :
    (Entry.dir es).removeAt [k] = .dir (removeKey k es) := rfl

theorem removeAt_dir_found {es : List (String × Entry)} {k : String}
    {child : Entry} {p2 : List String} (hf : findEntry k es = some child)
    (hp : p2 ≠ []) :
    (Entry.dir es).removeAt (k :: p2)
      = .dir (orderedInsert k (child.removeAt p2) es) := by
  have : p2.isEmpty = false := by
    cases p2 with
    | nil => exact absurd rfl hp
    | cons a b => rfl
  simp [Entry.removeAt, hf, this]

theorem removeAt_dir_none {es : List (String × Entry)} {k : String}
    {p2 : List String} (hf : findEntry k es = none) (hp : p2 ≠ []) :
    (Entry.dir es).removeAt (k :: p2) = .dir es := by
  have : p2.isEmpty = false := by
    cases p2 with
    | nil => exact absurd rfl hp
    | cons a b => rfl
  simp [Entry.removeAt, hf, this]

/-! ## Write-path lemmas -/

/-- Nothing or a directory: the shapes a write walk may cross. -/
def noneOrDirB : Option Entry → Bool
  | none => true
  | some (.dir _) => true
  | _ => false

/-- The write path crosses only directories or absent entries, so the
mkdir and copy calls the writes model would not raise. -/
def writeClear (t : Entry) (p : List String) : Prop :=
  ∀ i, i < p.length → noneOrDirB (t.lookup (p.take i)) = true

theorem writeClear_root {t : Entry} {k : String} {p2 : List String}
    (h : writeClear t (k :: p2)) : ∃ es, t = .dir es := by
  have h0 := h 0 (by simp)
  rw [List.take_zero, lookup_nil] at h0
  cases t with
  | file c => simp [noneOrDirB] at h0
  | symlink s => simp [noneOrDirB] at h0
  | dir es => exact ⟨es, rfl⟩

theorem writeClear_step {es : List (String × Entry)} {k : String}
    {p2 : List String} {child : Entry}
    (h : writeClear (.dir es) (k :: p2)) (hf : findEntry k es = some child) :
    writeClear child p2 := by
  intro i hi
  have h1 := h (i + 1) (by simpa using Nat.succ_lt_succ hi)
  rw [List.take_succ_cons, lookup_dir_found hf] at h1
  exact h1

theorem writeClear_child_dir {es : List (String × Entry)} {k : String}
    {p2 : List String} {child : Entry}
    (h : writeClear (.dir es) (k :: p2)) (hne : p2 ≠ [])
    (hf : findEntry k es = some child) : ∃ ces, child = .dir ces := by
  have hlen : 1 < (k :: p2).length := by
    cases p2 with
    | nil => exact absurd rfl hne
    | cons a b => simp
  have h1 := h 1 hlen
  rw [show (k :: p2).take 1 = [k] from by simp,
    lookup_dir_found hf, lookup_nil] at h1
  cases child with
  | file c => simp [noneOrDirB] at h1
  | symlink s => simp [noneOrDirB] at h1
  | dir ces => exact ⟨ces, rfl⟩

theorem lookup_insertAt_append (v : Entry) :
    ∀ (p : List String) (t : Entry) (r : List String), writeClear t p →
    (t.insertAt p v).lookup (p ++ r) = v.lookup r := by
  intro p
  induction p with
  | nil => intro t r _; rw [insertAt_nil, List.nil_append]
  | cons k p2 ih =>
    intro t r hc
    obtain ⟨es, rfl⟩ := writeClear_root hc
    cases hf : findEntry k es with
    | some child =>
      cases hp2 : p2 with
      | nil =>
        rw [insertAt_dir_found_nil hf, List.cons_append, List.nil_append,
          lookup_dir_found (findEntry_orderedInsert_self k v es)]
      | cons x y =>
        rw [← hp2]
        have hne : p2 ≠ [] := by rw [hp2]; simp
        obtain ⟨ces, rfl⟩ := writeClear_child_dir hc hne hf
        rw [insertAt_dir_found_dir hf hne, List.cons_append,
          lookup_dir_found (findEntry_orderedInsert_self k _ es)]
        exact ih (.dir ces) r (writeClear_step hc hf)
    | none =>
      rw [insertAt_dir_none hf, List.cons_append,
        lookup_dir_found (findEntry_orderedInsert_self k _ es)]
      exact buildChain_lookup_append v r p2

theorem lookup_insertAt_other (v : Entry) :
    ∀ (p : List String) (t : Entry) (q : List String),
    underPathB p q = false → underPathB q p = false →
    (t.insertAt p v).lookup q = t.lookup q := by
  intro p
  induction p with
  | nil => intro t q h1 _; simp [underPathB] at h1
  | cons k p2 ih =>
    intro t q h1 h2
    cases q with
    | nil => simp [underPathB] at h2
    | cons b q2 =>
      cases t with
      | file c => rw [insertAt_file]
      | symlink s => rw [insertAt_symlink]
      | dir es =>
        by_cases hkb : b = k
        · subst hkb
          rw [underPathB] at h1 h2
          simp only [beq_self_eq_true, Bool.true_and] at h1 h2
          cases hf : findEntry b es with
          | some child =>
            cases hp2 : p2 with
            | nil => rw [hp2] at h1; simp [underPathB] at h1
            | cons x y =>
              rw [← hp2]
              have hne : p2 ≠ [] := by rw [hp2]; simp
              cases child with
              | dir ces =>
                rw [insertAt_dir_found_dir hf hne,
                  lookup_dir_found (findEntry_orderedInsert_self b _ es),
                  lookup_dir_found hf]
                exact ih (.dir ces) q2 h1 h2
              | file c => rw [insertAt_dir_found_file hf hne]
              | symlink s => rw [insertAt_dir_found_symlink hf hne]
          | none =>
            rw [insertAt_dir_none hf,
              lookup_dir_found (findEntry_orderedInsert_self b _ es),
              lookup_dir_none hf]
            exact buildChain_lookup_other v p2 q2 h1 h2
        · have hne2 : b ≠ k := hkb
          cases hf : findEntry k es with
          | some child =>
            cases hp2 : p2 with
            | nil =>
              rw [insertAt_dir_found_nil hf]
              cases hfb : findEntry b es with
              | some cb =>
                rw [lookup_dir_found (by
                  rw [findEntry_orderedInsert_ne _ hne2, hfb] : findEntry b
                    (orderedInsert k v es) = some cb),
                  lookup_dir_found hfb]
              | none =>
                rw [lookup_dir_none (by
                  rw [findEntry_orderedInsert_ne _ hne2, hfb] : findEntry b
                    (orderedInsert k v es) = none),
                  lookup_dir_none hfb]
            | cons x y =>
              rw [← hp2]
              have hnee : p2 ≠ [] := by rw [hp2]; simp
              cases child with
              | dir ces =>
                rw [insertAt_dir_found_dir hf hnee]
                cases hfb : findEntry b es with
                | some cb =>
                  rw [lookup_dir_found (by
                    rw [findEntry_orderedInsert_ne _ hne2, hfb] : findEntry b
                      (orderedInsert k ((Entry.dir ces).insertAt p2 v) es)
                        = some cb),
                    lookup_dir_found hfb]
                | none =>
                  rw [lookup_dir_none (by
                    rw [findEntry_orderedInsert_ne _ hne2, hfb] : findEntry b
                      (orderedInsert k ((Entry.dir ces).insertAt p2 v) es)
                        = none),
                    lookup_dir_none hfb]
              | file c => rw [insertAt_dir_found_file hf hnee]
              | symlink s => rw [insertAt_dir_found_symlink hf hnee]
          | none =>
            rw [insertAt_dir_none hf]
            cases hfb : findEntry b es with
            | some cb =>
              rw [lookup_dir_found (by
                rw [findEntry_orderedInsert_ne _ hne2, hfb] : findEntry b
                  (orderedInsert k (buildChain p2 v) es) = some cb),
                lookup_dir_found hfb]
            | none =>
              rw [lookup_dir_none (by
                rw [findEntry_orderedInsert_ne _ hne2, hfb] : findEntry b
                  (orderedInsert k (buildChain p2 v) es) = none),
                lookup_dir_none hfb]

theorem lookup_deep_dir {t : Entry} {q : List String} {x : String}
    {r2 : List String} {e : Entry}
    (h : t.lookup (q ++ x :: r2) = some e) :
    ∃ es, t.lookup q = some (.dir es) := by
  rw [lookup_append] at h
  cases hq : t.lookup q with
  | none => rw [hq] at h; simp at h
  | some X =>
    rw [hq] at h
    simp only [Option.some_bind] at h
    cases X with
    | file c => simp [lookup_file] at h
    | symlink s => simp [lookup_symlink] at h
    | dir es => exact ⟨es, rfl⟩

theorem insertAt_dir_is_dir (es : List (String × Entry)) (p : List String)
    (v : Entry) (hp : p ≠ []) :
    ∃ es2, (Entry.dir es).insertAt p v = .dir es2 := by
  rcases p with _ | ⟨k, p2⟩
  · exact absurd rfl hp
  · cases hf : findEntry k es with
    | some child =>
      cases hp2 : p2 with
      | nil => rw [insertAt_dir_found_nil hf]; exact ⟨_, rfl⟩
      | cons x y =>
        rw [← hp2]
        have hne : p2 ≠ [] := by rw [hp2]; simp
        cases child with
        | dir ces => rw [insertAt_dir_found_dir hf hne]; exact ⟨_, rfl⟩
        | file c => rw [insertAt_dir_found_file hf hne]; exact ⟨es, rfl⟩
        | symlink s => rw [insertAt_dir_found_symlink hf hne]; exact ⟨es, rfl⟩
    | none => rw [insertAt_dir_none hf]; exact ⟨_, rfl⟩

theorem removeAt_dir_is_dir (es : List (String × Entry)) (p : List String) :
    ∃ es2, (Entry.dir es).removeAt p = .dir es2 := by
  rcases p with _ | ⟨k, p2⟩
  · exact ⟨es, removeAt_nil _⟩
  · cases hp2 : p2 with
    | nil => exact ⟨_, removeAt_dir_single es k⟩
    | cons x y =>
      rw [← hp2]
      have hne : p2 ≠ [] := by rw [hp2]; simp
      cases hf : findEntry k es with
      | some child => rw [removeAt_dir_found hf hne]; exact ⟨_, rfl⟩
      | none => rw [removeAt_dir_none hf hne]; exact ⟨es, rfl⟩

theorem lookup_insertAt_parents (v : Entry) :
    ∀ (q : List String) (t : Entry) (r : List String), writeClear t (q ++ r) →
    r ≠ [] →
    ∃ es2, (t.insertAt (q ++ r) v).lookup q = some (.dir es2) := by
  intro q
  induction q with
  | nil =>
    intro t r hc hr
    rcases r with _ | ⟨k, r2⟩
    · exact absurd rfl hr
    · obtain ⟨es, rfl⟩ := writeClear_root hc
      rw [List.nil_append, lookup_nil]
      obtain ⟨es2, he⟩ := insertAt_dir_is_dir es (k :: r2) v (by simp)
      rw [List.nil_append] at *
      exact ⟨es2, by rw [he]⟩
  | cons b q2 ih =>
    intro t r hc hr
    rw [List.cons_append] at hc
    obtain ⟨es, rfl⟩ := writeClear_root hc
    have hne : q2 ++ r ≠ [] := by
      intro habs
      exact hr (List.append_eq_nil.mp habs).2
    rw [List.cons_append]
    cases hf : findEntry b es with
    | some child =>
      obtain ⟨ces, rfl⟩ := writeClear_child_dir hc hne hf
      rw [insertAt_dir_found_dir hf hne,
        lookup_dir_found (findEntry_orderedInsert_self b _ es)]
      exact ih (.dir ces) r (writeClear_step hc hf) hr
    | none =>
      rw [insertAt_dir_none hf,
        lookup_dir_found (findEntry_orderedInsert_self b _ es)]
      exact buildChain_lookup_within v r hr q2

theorem lookup_insertAt_sub (v : Entry) :
    ∀ (q : List String) (t : Entry) (r : List String), r ≠ [] →
    ∀ X, t.lookup q = some X →
    (t.insertAt (q ++ r) v).lookup q = some (X.insertAt r v) := by
  intro q
  induction q with
  | nil =>
    intro t r _ X hX
    rw [lookup_nil] at hX
    injection hX with hX
    rw [← hX, List.nil_append, lookup_nil]
  | cons b q2 ih =>
    intro t r hr X hX
    cases t with
    | file c => simp [lookup_file] at hX
    | symlink s => simp [lookup_symlink] at hX
    | dir es =>
      cases hf : findEntry b es with
      | none => rw [lookup_dir_none hf] at hX; simp at hX
      | some child =>
        rw [lookup_dir_found hf] at hX
        rw [List.cons_append]
        have hne : q2 ++ r ≠ [] := by
          intro habs
          exact hr (List.append_eq_nil.mp habs).2
        cases child with
        | dir ces =>
          rw [insertAt_dir_found_dir hf hne,
            lookup_dir_found (findEntry_orderedInsert_self b _ es)]
          exact ih (.dir ces) r hr X hX
        | file c =>
          cases q2 with
          | nil =>
            rw [lookup_nil] at hX
            injection hX with hX
            rcases r with _ | ⟨x, y⟩
            · exact absurd rfl hr
            · rw [List.nil_append, insertAt_dir_found_file hf (by simp),
                lookup_dir_found hf, lookup_nil, ← hX, insertAt_file]
          | cons z w => simp [lookup_file] at hX
        | symlink s =>
          cases q2 with
          | nil =>
            rw [lookup_nil] at hX
            injection hX with hX
            rcases r with _ | ⟨x, y⟩
            · exact absurd rfl hr
            · rw [List.nil_append, insertAt_dir_found_symlink hf (by simp),
                lookup_dir_found hf, lookup_nil, ← hX, insertAt_symlink]
          | cons z w => simp [lookup_symlink] at hX

theorem lookup_removeAt_sub :
    ∀ (q : List String) (t : Entry) (r : List String), r ≠ [] →
    (t.removeAt (q ++ r)).lookup q
      = (t.lookup q).map (fun X => X.removeAt r) := by
  intro q
  induction q with
  | nil =>
    intro t r _
    rw [List.nil_append, lookup_nil, lookup_nil]
    rfl
  | cons b q2 ih =>
    intro t r hr
    cases t with
    | file c => rw [removeAt_file, lookup_file]; rfl
    | symlink s => rw [removeAt_symlink, lookup_symlink]; rfl
    | dir es =>
      have hne : q2 ++ r ≠ [] := by
        intro habs
        exact hr (List.append_eq_nil.mp habs).2
      rw [List.cons_append]
      cases hf : findEntry b es with
      | none =>
        rw [removeAt_dir_none hf hne, lookup_dir_none hf]
        rfl
      | some child =>
        rw [removeAt_dir_found hf hne,
          lookup_dir_found (findEntry_orderedInsert_self b _ es),
          lookup_dir_found hf]
        exact ih child r hr

theorem lookup_removeAt_other :
    ∀ (p : List String) (t : Entry) (q : List String),
    underPathB p q = false → underPathB q p = false →
    (t.removeAt p).lookup q = t.lookup q := by
  intro p
  induction p with
  | nil => intro t q h1 _; simp [underPathB] at h1
  | cons k p2 ih =>
    intro t q h1 h2
    cases q with
    | nil => simp [underPathB] at h2
    | cons b q2 =>
      cases t with
      | file c => rw [removeAt_file]
      | symlink s => rw [removeAt_symlink]
      | dir es =>
        by_cases hkb : b = k
        · subst hkb
          rw [underPathB] at h1 h2
          simp only [beq_self_eq_true, Bool.true_and] at h1 h2
          cases hp2 : p2 with
          | nil => rw [hp2] at h1; simp [underPathB] at h1
          | cons x y =>
            rw [← hp2]
            have hne : p2 ≠ [] := by rw [hp2]; simp
            cases hf : findEntry b es with
            | some child =>
              rw [removeAt_dir_found hf hne,
                lookup_dir_found (findEntry_orderedInsert_self b _ es),
                lookup_dir_found hf]
              exact ih child q2 h1 h2
            | none => rw [removeAt_dir_none hf hne]
        · have hne2 : b ≠ k := hkb
          cases hp2 : p2 with
          | nil =>
            rw [removeAt_dir_single]
            cases hfb : findEntry b es with
            | some cb =>
              rw [lookup_dir_found (by
                rw [findEntry_removeKey_ne hne2, hfb] : findEntry b
                  (removeKey k es) = some cb),
                lookup_dir_found hfb]
            | none =>
              rw [lookup_dir_none (by
                rw [findEntry_removeKey_ne hne2, hfb] : findEntry b
                  (removeKey k es) = none),
                lookup_dir_none hfb]
          | cons x y =>
            rw [← hp2]
            have hne : p2 ≠ [] := by rw [hp2]; simp
            cases hf : findEntry k es with
            | some child =>
              rw [removeAt_dir_found hf hne]
              cases hfb : findEntry b es with
              | some cb =>
                rw [lookup_dir_found (by
                  rw [findEntry_orderedInsert_ne _ hne2, hfb] : findEntry b
                    (orderedInsert k (child.removeAt p2) es) = some cb),
                  lookup_dir_found hfb]
              | none =>
                rw [lookup_dir_none (by
                  rw [findEntry_orderedInsert_ne _ hne2, hfb] : findEntry b
                    (orderedInsert k (child.removeAt p2) es) = none),
                  lookup_dir_none hfb]
            | none => rw [removeAt_dir_none hf hne]

theorem lookup_removeAt_under :
    ∀ (p : List String) (t : Entry) (r : List String), t.wf = true →
    p ≠ [] → (t.removeAt p).lookup (p ++ r) = none := by
  intro p
  induction p with
  | nil => intro t r _ h; exact absurd rfl h
  | cons k p2 ih =>
    intro t r hwf _
    cases t with
    | file c => rw [removeAt_file, List.cons_append, lookup_file]
    | symlink s => rw [removeAt_symlink, List.cons_append, lookup_symlink]
    | dir es =>
      obtain ⟨hsort, hlist⟩ := wf_dir_parts hwf
      cases hp2 : p2 with
      | nil =>
        rw [removeAt_dir_single, List.cons_append, List.nil_append,
          lookup_dir_none (findEntry_removeKey_self hsort)]
      | cons x y =>
        rw [← hp2]
        have hne : p2 ≠ [] := by rw [hp2]; simp
        cases hf : findEntry k es with
        | some child =>
          rw [removeAt_dir_found hf hne, List.cons_append,
            lookup_dir_found (findEntry_orderedInsert_self k _ es)]
          exact ih child r (wfList_findEntry hlist hf) hne
        | none =>
          rw [removeAt_dir_none hf hne, List.cons_append, lookup_dir_none hf]

/-! ## Rewrite-in-place identities and preservation lemmas -/

theorem insertAt_lookup_self_eq :
    ∀ (p : List String) (t v : Entry), t.wf = true →
    t.lookup p = some v → t.insertAt p v = t := by
  intro p
  induction p with
  | nil =>
    intro t v _ hv
    rw [lookup_nil] at hv
    injection hv with hv
    rw [insertAt_nil, hv]
  | cons k p2 ih =>
    intro t v hwf hv
    cases t with
    | file c => simp [lookup_file] at hv
    | symlink s => simp [lookup_symlink] at hv
    | dir es =>
      obtain ⟨hsort, hlist⟩ := wf_dir_parts hwf
      cases hf : findEntry k es with
      | none => rw [lookup_dir_none hf] at hv; simp at hv
      | some child =>
        rw [lookup_dir_found hf] at hv
        cases hp2 : p2 with
        | nil =>
          rw [hp2, lookup_nil] at hv
          injection hv with hv
          rw [insertAt_dir_found_nil hf, ← hv,
            orderedInsert_of_findEntry hsort hf]
        | cons x y =>
          rw [← hp2]
          have hne : p2 ≠ [] := by rw [hp2]; simp
          cases child with
          | file c => rw [hp2, lookup_file] at hv; simp at hv
          | symlink s => rw [hp2, lookup_symlink] at hv; simp at hv
          | dir ces =>
            rw [insertAt_dir_found_dir hf hne,
              ih (.dir ces) v (wfList_findEntry hlist hf) hv,
              orderedInsert_of_findEntry hsort hf]

theorem removeAt_insertAt_self :
    ∀ (p : List String) (t v : Entry), t.wf = true →
    t.lookup p = some v → (t.removeAt p).insertAt p v = t := by
  intro p
  induction p with
  | nil =>
    intro t v _ hv
    rw [lookup_nil] at hv
    injection hv with hv
    rw [removeAt_nil, insertAt_nil, hv]
  | cons k p2 ih =>
    intro t v hwf hv
    cases t with
    | file c => simp [lookup_file] at hv
    | symlink s => simp [lookup_symlink] at hv
    | dir es =>
      obtain ⟨hsort, hlist⟩ := wf_dir_parts hwf
      cases hf : findEntry k es with
      | none => rw [lookup_dir_none hf] at hv; simp at hv
      | some child =>
        rw [lookup_dir_found hf] at hv
        cases hp2 : p2 with
        | nil =>
          rw [hp2, lookup_nil] at hv
          injection hv with hv
          rw [removeAt_dir_single,
            insertAt_dir_none (findEntry_removeKey_self hsort) [] v]
          rw [show buildChain [] v = v from rfl, ← hv,
            orderedInsert_removeKey hsort hf]
        | cons x y =>
          rw [← hp2]
          have hne : p2 ≠ [] := by rw [hp2]; simp
          cases child with
          | file c => rw [hp2, lookup_file] at hv; simp at hv
          | symlink s => rw [hp2, lookup_symlink] at hv; simp at hv
          | dir ces =>
            rw [removeAt_dir_found hf hne]
            obtain ⟨es2, hshape⟩ := removeAt_dir_is_dir ces p2
            rw [hshape, insertAt_dir_found_dir
              (findEntry_orderedInsert_self k _ es) hne, ← hshape,
              ih (.dir ces) v (wfList_findEntry hlist hf) hv,
              orderedInsert_orderedInsert,
              orderedInsert_of_findEntry hsort hf]

theorem insertAt_wf :
    ∀ (p : List String) (t v : Entry), t.wf = true → v.wf = true →
    (t.insertAt p v).wf = true := by
  intro p
  induction p with
  | nil => intro t v _ hv; rw [insertAt_nil]; exact hv
  | cons k p2 ih =>
    intro t v hwf hv
    cases t with
    | file c => rw [insertAt_file]; exact hwf
    | symlink s => rw [insertAt_symlink]; exact hwf
    | dir es =>
      obtain ⟨hsort, hlist⟩ := wf_dir_parts hwf
      cases hf : findEntry k es with
      | none =>
        rw [insertAt_dir_none hf]
        exact wf_dir_intro (entriesSortedKeys_orderedInsert hsort)
          (wfList_orderedInsert hlist (buildChain_wf hv p2))
      | some child =>
        cases hp2 : p2 with
        | nil =>
          rw [insertAt_dir_found_nil hf]
          exact wf_dir_intro (entriesSortedKeys_orderedInsert hsort)
            (wfList_orderedInsert hlist hv)
        | cons x y =>
          rw [← hp2]
          have hne : p2 ≠ [] := by rw [hp2]; simp
          cases child with
          | file c => rw [insertAt_dir_found_file hf hne]; exact hwf
          | symlink s => rw [insertAt_dir_found_symlink hf hne]; exact hwf
          | dir ces =>
            rw [insertAt_dir_found_dir hf hne]
            exact wf_dir_intro (entriesSortedKeys_orderedInsert hsort)
              (wfList_orderedInsert hlist
                (ih (.dir ces) v (wfList_findEntry hlist hf) hv))

theorem removeAt_wf :
    ∀ (p : List String) (t : Entry), t.wf = true →
    (t.removeAt p).wf = true := by
  intro p
  induction p with
  | nil => intro t hwf; rw [removeAt_nil]; exact hwf
  | cons k p2 ih =>
    intro t hwf
    cases t with
    | file c => rw [removeAt_file]; exact hwf
    | symlink s => rw [removeAt_symlink]; exact hwf
    | dir es =>
      obtain ⟨hsort, hlist⟩ := wf_dir_parts hwf
      cases hp2 : p2 with
      | nil =>
        rw [removeAt_dir_single]
        exact wf_dir_intro (entriesSortedKeys_removeKey hsort)
          (wfList_removeKey hlist)
      | cons x y =>
        rw [← hp2]
        have hne : p2 ≠ [] := by rw [hp2]; simp
        cases hf : findEntry k es with
        | some child =>
          rw [removeAt_dir_found hf hne]
          exact wf_dir_intro (entriesSortedKeys_orderedInsert hsort)
            (wfList_orderedInsert hlist (ih child (wfList_findEntry hlist hf)))
        | none => rw [removeAt_dir_none hf hne]; exact hwf

theorem insertAt_symlinkFree :
    ∀ (p : List String) (t v : Entry), t.symlinkFree = true →
    v.symlinkFree = true → (t.insertAt p v).symlinkFree = true := by
  intro p
  induction p with
  | nil => intro t v _ hv; rw [insertAt_nil]; exact hv
  | cons k p2 ih =>
    intro t v hsf hv
    cases t with
    | file c => rw [insertAt_file]; exact hsf
    | symlink s => rw [insertAt_symlink]; exact hsf
    | dir es =>
      rw [Entry.symlinkFree] at hsf
      cases hf : findEntry k es with
      | none =>
        rw [insertAt_dir_none hf, Entry.symlinkFree]
        exact symlinkFreeList_orderedInsert hsf (buildChain_symlinkFree hv p2)
      | some child =>
        cases hp2 : p2 with
        | nil =>
          rw [insertAt_dir_found_nil hf, Entry.symlinkFree]
          exact symlinkFreeList_orderedInsert hsf hv
        | cons x y =>
          rw [← hp2]
          have hne : p2 ≠ [] := by rw [hp2]; simp
          cases child with
          | file c =>
            rw [insertAt_dir_found_file hf hne, Entry.symlinkFree]; exact hsf
          | symlink s =>
            rw [insertAt_dir_found_symlink hf hne, Entry.symlinkFree]
            exact hsf
          | dir ces =>
            rw [insertAt_dir_found_dir hf hne, Entry.symlinkFree]
            exact symlinkFreeList_orderedInsert hsf
              (ih (.dir ces) v (symlinkFreeList_findEntry hsf hf) hv)

theorem removeAt_symlinkFree :
    ∀ (p : List String) (t : Entry), t.symlinkFree = true →
    (t.removeAt p).symlinkFree = true := by
  intro p
  induction p with
  | nil => intro t hsf; rw [removeAt_nil]; exact hsf
  | cons k p2 ih =>
    intro t hsf
    cases t with
    | file c => rw [removeAt_file]; exact hsf
    | symlink s => rw [removeAt_symlink]; exact hsf
    | dir es =>
      rw [Entry.symlinkFree] at hsf
      cases hp2 : p2 with
      | nil =>
        rw [removeAt_dir_single, Entry.symlinkFree]
        exact symlinkFreeList_removeKey hsf
      | cons x y =>
        rw [← hp2]
        have hne : p2 ≠ [] := by rw [hp2]; simp
        cases hf : findEntry k es with
        | some child =>
          rw [removeAt_dir_found hf hne, Entry.symlinkFree]
          exact symlinkFreeList_orderedInsert hsf
            (ih child (symlinkFreeList_findEntry hsf hf))
        | none => rw [removeAt_dir_none hf hne, Entry.symlinkFree]; exact hsf

/-! ## clean: frame and idempotence lemmas -/

theorem underPathB_refl : ∀ p : List String, underPathB p p = true := by
  intro p
  induction p with
  | nil => rfl
  | cons k p2 ih => rw [underPathB]; simp [ih]

theorem underPathB_dest :
    ∀ (q p : List String), underPathB q p = true → ∃ r, p = q ++ r := by
  intro q
  induction q with
  | nil => intro p _; exact ⟨p, rfl⟩
  | cons b q2 ih =>
    intro p h
    cases p with
    | nil => simp [underPathB] at h
    | cons k p2 =>
      rw [underPathB, Bool.and_eq_true, beq_iff_eq] at h
      obtain ⟨rfl, h2⟩ := h
      obtain ⟨r, rfl⟩ := ih p2 h2
      exact ⟨r, rfl⟩

theorem underPathB_append (q r : List String) :
    underPathB q (q ++ r) = true := by
  induction q with
  | nil => rfl
  | cons b q2 ih => rw [List.cons_append, underPathB]; simp [ih]

/-- One iteration of the clean loop. -/
def cleanStep (t : Entry) (sp : List String) : Entry :=
  if t.isDirAt sp then t.removeAt sp
  else if t.existsAt sp then t.removeAt sp
  else t

theorem clean_eq_foldl (target_dir : Entry) (sync_paths : List (List String)) :
    LocalEnvironment.clean target_dir sync_paths
      = sync_paths.foldl cleanStep target_dir := rfl

theorem cleanStep_cases (t : Entry) (sp : List String) :
    cleanStep t sp = t.removeAt sp ∨ cleanStep t sp = t := by
  unfold cleanStep
  by_cases h1 : t.isDirAt sp
  · rw [if_pos h1]; exact Or.inl rfl
  · rw [if_neg h1]
    by_cases h2 : t.existsAt sp
    · rw [if_pos h2]; exact Or.inl rfl
    · rw [if_neg h2]; exact Or.inr rfl

theorem cleanStep_wf {t : Entry} (hwf : t.wf = true) (sp : List String) :
    (cleanStep t sp).wf = true := by
  rcases cleanStep_cases t sp with h | h <;> rw [h]
  · exact removeAt_wf sp t hwf
  · exact hwf

theorem cleanStep_symlinkFree {t : Entry} (hsf : t.symlinkFree = true)
    (sp : List String) : (cleanStep t sp).symlinkFree = true := by
  rcases cleanStep_cases t sp with h | h <;> rw [h]
  · exact removeAt_symlinkFree sp t hsf
  · exact hsf

/-- A file whose path is not at or under the removal path survives a
removeAt untouched. -/
theorem removeAt_file_frame {t : Entry} {q : List String} {c : Option String}
    (hq : t.lookup q = some (.file c)) (p : List String)
    (hnot : underPathB p q = false) :
    (t.removeAt p).lookup q = some (.file c) := by
  by_cases hqp : underPathB q p = true
  · obtain ⟨r, rfl⟩ := underPathB_dest q p hqp
    have hr : r ≠ [] := by
      intro habs
      rw [habs, List.append_nil] at hnot
      rw [underPathB_refl] at hnot
      exact absurd hnot (by simp)
    rw [lookup_removeAt_sub q t r hr, hq]
    rw [show Option.map (fun X => X.removeAt r) (some (Entry.file c))
      = some ((Entry.file c).removeAt r) from rfl, removeAt_file]
  · rw [lookup_removeAt_other p t q hnot (by
      cases h : underPathB q p
      · rfl
      · exact absurd h hqp)]
    exact hq

theorem removeAt_lookup_none {t : Entry} {q : List String}
    (hwf : t.wf = true) (hq : t.lookup q = none) (p : List String) :
    (t.removeAt p).lookup q = none := by
  by_cases u1 : underPathB p q = true
  · obtain ⟨r, rfl⟩ := underPathB_dest p q u1
    rcases p with _ | ⟨k, p2⟩
    · rw [removeAt_nil]; exact hq
    · exact lookup_removeAt_under (k :: p2) t r hwf (by simp)
  · by_cases u2 : underPathB q p = true
    · obtain ⟨r, rfl⟩ := underPathB_dest q p u2
      have hr : r ≠ [] := by
        intro habs
        rw [habs, List.append_nil, underPathB_refl] at u1
        exact u1 rfl
      rw [lookup_removeAt_sub q t r hr, hq]
      rfl
    · rw [lookup_removeAt_other p t q (by
        cases h : underPathB p q
        · rfl
        · exact absurd h u1)
        (by
        cases h : underPathB q p
        · rfl
        · exact absurd h u2)]
      exact hq

theorem cleanStep_lookup_none {t : Entry} {q : List String}
    (hwf : t.wf = true) (hq : t.lookup q = none) (sp : List String) :
    (cleanStep t sp).lookup q = none := by
  rcases cleanStep_cases t sp with h | h <;> rw [h]
  · exact removeAt_lookup_none hwf hq sp
  · exact hq

theorem cleanStep_self_none {t : Entry} {sp : List String}
    (hwf : t.wf = true) (hsf : t.symlinkFree = true) (hsp : sp ≠ []) :
    (cleanStep t sp).lookup sp = none := by
  unfold cleanStep
  by_cases h1 : t.isDirAt sp
  · rw [if_pos h1]
    have := lookup_removeAt_under sp t [] hwf hsp
    rw [List.append_nil] at this
    exact this
  · rw [if_neg h1]
    by_cases h2 : t.existsAt sp
    · rw [if_pos h2]
      have := lookup_removeAt_under sp t [] hwf hsp
      rw [List.append_nil] at this
      exact this
    · rw [if_neg h2]
      rw [existsAt_eq_lookup hsf] at h2
      cases h : t.lookup sp with
      | none => rfl
      | some e => rw [h] at h2; simp at h2

theorem clean_foldl_lookup_none {q : List String} :
    ∀ (sync_paths : List (List String)) (t : Entry), t.wf = true →
    t.lookup q = none →
    (sync_paths.foldl cleanStep t).lookup q = none := by
  intro sps
  induction sps with
  | nil => intro t _ hq; exact hq
  | cons sp rest ih =>
    intro t hwf hq
    rw [List.foldl_cons]
    exact ih (cleanStep t sp) (cleanStep_wf hwf sp)
      (cleanStep_lookup_none hwf hq sp)

theorem clean_foldl_wf :
    ∀ (sync_paths : List (List String)) (t : Entry), t.wf = true →
    (sync_paths.foldl cleanStep t).wf = true := by
  intro sps
  induction sps with
  | nil => intro t hwf; exact hwf
  | cons sp rest ih =>
    intro t hwf
    rw [List.foldl_cons]
    exact ih (cleanStep t sp) (cleanStep_wf hwf sp)

theorem clean_foldl_symlinkFree :
    ∀ (sync_paths : List (List String)) (t : Entry), t.symlinkFree = true →
    (sync_paths.foldl cleanStep t).symlinkFree = true := by
  intro sps
  induction sps with
  | nil => intro t hsf; exact hsf
  | cons sp rest ih =>
    intro t hsf
    rw [List.foldl_cons]
    exact ih (cleanStep t sp) (cleanStep_symlinkFree hsf sp)

theorem clean_removes :
    ∀ (sync_paths : List (List String)) (t : Entry), t.wf = true →
    t.symlinkFree = true → ∀ sp ∈ sync_paths, sp ≠ [] →
    (sync_paths.foldl cleanStep t).lookup sp = none := by
  intro sps
  induction sps with
  | nil => intro t _ _ sp hsp; simp at hsp
  | cons sp0 rest ih =>
    intro t hwf hsf sp hsp hne
    rw [List.foldl_cons]
    rcases List.mem_cons.mp hsp with heq | hmem
    · rw [heq]
      exact clean_foldl_lookup_none rest (cleanStep t sp0)
        (cleanStep_wf hwf sp0) (cleanStep_self_none hwf hsf (heq ▸ hne))
    · exact ih (cleanStep t sp0) (cleanStep_wf hwf sp0)
        (cleanStep_symlinkFree hsf sp0) sp hmem hne

theorem clean_foldl_fixpoint {u : Entry} (hsf : u.symlinkFree = true) :
    ∀ (sync_paths : List (List String)),
    (∀ sp ∈ sync_paths, u.lookup sp = none) →
    sync_paths.foldl cleanStep u = u := by
  intro sps
  induction sps with
  | nil => intro _; rfl
  | cons sp0 rest ih =>
    intro hall
    rw [List.foldl_cons]
    have hstep : cleanStep u sp0 = u := by
      unfold cleanStep
      rw [show u.isDirAt sp0 = false from by
        rw [isDirAt_eq_lookup hsf, hall sp0 (by simp)],
        show u.existsAt sp0 = false from by
        rw [existsAt_eq_lookup hsf, hall sp0 (by simp)]; rfl]
      simp
    rw [hstep]
    exact ih fun sp hsp => hall sp (by simp [hsp])

/-- C10: the clean operation of the local adapter removes exactly the
entries at the listed sync paths: each listed sync path is absent
afterwards, and every file whose path is neither equal to nor under one
of the listed sync paths is left unchanged. -/
theorem clean_frame (target_dir : Entry) (sync_paths : List (List String))
    (hwf : target_dir.wf = true) (hsf : target_dir.symlinkFree = true) :
    (∀ sp ∈ sync_paths, sp ≠ [] →
      (LocalEnvironment.clean target_dir sync_paths).lookup sp = none)
    ∧ (∀ (q : List String) (c : Option String),
      target_dir.lookup q = some (.file c) →
      (∀ sp ∈ sync_paths, underPathB sp q = false) →
      (LocalEnvironment.clean target_dir sync_paths).lookup q
        = some (.file c)) := by
  constructor
  · rw [clean_eq_foldl]
    exact fun sp hsp hne => clean_removes sync_paths target_dir hwf hsf sp hsp hne
  · rw [clean_eq_foldl]
    induction sync_paths generalizing target_dir with
    | nil => intro q c hq _; exact hq
    | cons sp rest ih =>
      intro q c hq hall
      rw [List.foldl_cons]
      have h1 : (cleanStep target_dir sp).lookup q = some (.file c) := by
        rcases cleanStep_cases target_dir sp with h | h <;> rw [h]
        · exact removeAt_file_frame hq sp (hall sp (by simp))
        · exact hq
      exact ih (cleanStep target_dir sp) (cleanStep_wf hwf sp)
        (cleanStep_symlinkFree hsf sp) q c h1
        (fun sp2 hsp2 => hall sp2 (by simp [hsp2]))

/-- Witness for C10: cleaning one sync path removes it and leaves an
unrelated file in place. -/
theorem clean_frame_witness :
    (LocalEnvironment.clean
      (.dir [("keep", .file (some "k")), ("zap", .file (some "z"))])
      [["zap"]]).lookup ["keep"] = some (.file (some "k"))
    ∧ (LocalEnvironment.clean
      (.dir [("keep", .file (some "k")), ("zap", .file (some "z"))])
      [["zap"]]).lookup ["zap"] = none := by
  have h := clean_frame
    (.dir [("keep", .file (some "k")), ("zap", .file (some "z"))])
    [["zap"]]
    (by simp [Entry.wf, wfList, entriesSortedKeys]; decide)
    (by simp [Entry.symlinkFree, symlinkFreeList])
  refine ⟨?_, ?_⟩
  · exact h.2 ["keep"] (some "k") rfl
      (by intro sp hsp; simp at hsp; rw [hsp]; rfl)
  · exact h.1 ["zap"] (by simp) (by simp)

/-! ## collect_files lemmas (claim C9) -/

theorem isFileAt_eq_lookup {t : Entry} (ht : t.symlinkFree = true)
    (p : List String) :
    t.isFileAt p = (match t.lookup p with
      | some (.file _) => true
      | _ => false) := by
  rw [Entry.isFileAt, show maxLinkDepth = 39 + 1 from rfl,
    resolveAt_eq_lookup ht]

theorem lookupKV_dictInsert_self {K V : Type} [DecidableEq K]
    (k : K) (v : V) : ∀ (d : List (K × V)),
    lookupKV (dictInsert d k v) k = some v := by
  intro d
  induction d with
  | nil => simp [dictInsert, lookupKV]
  | cons kv1 rest ih =>
    obtain ⟨k1, v1⟩ := kv1
    rw [dictInsert]
    by_cases h1 : k = k1
    · rw [if_pos h1, lookupKV, if_pos rfl]
    · rw [if_neg h1, lookupKV, if_neg h1]
      exact ih

theorem lookupKV_dictInsert_ne {K V : Type} [DecidableEq K]
    {q k : K} (v : V) (hne : q ≠ k) : ∀ (d : List (K × V)),
    lookupKV (dictInsert d k v) q = lookupKV d q := by
  intro d
  induction d with
  | nil => simp [dictInsert, lookupKV, if_neg hne]
  | cons kv1 rest ih =>
    obtain ⟨k1, v1⟩ := kv1
    rw [dictInsert]
    by_cases h1 : k = k1
    · rw [if_pos h1, lookupKV, lookupKV]
      subst h1
      rw [if_neg hne, if_neg hne]
    · rw [if_neg h1, lookupKV, lookupKV]
      by_cases h2 : q = k1
      · rw [if_pos h2, if_pos h2]
      · rw [if_neg h2, if_neg h2]
        exact ih

/-- The inner loop body of collect_files for a directory sync path. -/
def collectDirStep (es : List (String × Entry)) (sp : List String)
    (fs : List (List String × String)) (r : List String) :
    List (List String × String) :=
  match (Entry.dir es).lookup r with
  | some (.file co) => dictInsert fs (sp ++ r) (collectValue co)
  | _ => fs

/-- The outer loop body of collect_files. -/
def collectStep (base_dir : Entry) (files : List (List String × String))
    (sp : List String) : List (List String × String) :=
  if base_dir.existsAt sp then
    if base_dir.isFileAt sp then
      match base_dir.resolveAt maxLinkDepth sp with
      | some (.file co) => dictInsert files sp (collectValue co)
      | _ => files
    else
      match base_dir.resolveAt maxLinkDepth sp with
      | some (.dir es) => (filePaths es).foldl (collectDirStep es sp) files
      | _ => files
  else files

theorem collect_files_eq (base_dir : Entry)
    (sync_paths : List (List String)) :
    collect_files base_dir sync_paths
      = sync_paths.foldl (collectStep base_dir) [] := rfl

/-- An existing file path below a directory appears in the rglob file
enumeration. -/
theorem lookup_file_mem_filePaths {co : Option String} :
    ∀ (r : List String) (es : List (String × Entry)),
    (Entry.dir es).lookup r = some (.file co) → r ∈ filePaths es := by
  intro r
  induction r with
  | nil => intro es h; rw [lookup_nil] at h; simp at h
  | cons name r2 ih =>
    intro es h
    cases hf : findEntry name es with
    | none => rw [lookup_dir_none hf] at h; simp at h
    | some child =>
      rw [lookup_dir_found hf] at h
      have hmem : (name, child) ∈ es := mem_of_findEntry hf
      have hitem : (name :: r2) ∈ filePathsItem name child := by
        cases child with
        | file c =>
          cases r2 with
          | nil => simp [filePathsItem]
          | cons x y => rw [lookup_file] at h; simp at h
        | symlink s =>
          cases r2 with
          | nil => rw [lookup_nil] at h; simp at h
          | cons x y => rw [lookup_symlink] at h; simp at h
        | dir ces =>
          rw [filePathsItem, List.mem_map]
          exact ⟨r2, ih ces h, rfl⟩
      clear hf h ih
      induction es with
      | nil => simp at hmem
      | cons kv1 rest ih2 =>
        rw [filePaths]
        rcases List.mem_cons.mp hmem with heq | hmem2
        · rw [← heq]
          exact List.mem_append_left _ hitem
        · exact List.mem_append_right _ (ih2 hmem2)

theorem collectDirStep_preserves {base_dir : Entry} {q : List String}
    {co : Option String} {es : List (String × Entry)} {sp : List String}
    (hbase : base_dir.lookup sp = some (.dir es))
    (hq : base_dir.lookup q = some (.file co)) :
    ∀ (fs : List (List String × String)) (r : List String),
    lookupKV fs q = some (collectValue co) →
    lookupKV (collectDirStep es sp fs r) q = some (collectValue co) := by
  intro fs r hfs
  rw [collectDirStep]
  cases hl : (Entry.dir es).lookup r with
  | none => exact hfs
  | some e =>
    cases e with
    | file co2 =>
      by_cases hqr : q = sp ++ r
      · subst hqr
        have : base_dir.lookup (sp ++ r) = some (.file co2) := by
          rw [lookup_append, hbase, Option.some_bind]
          exact hl
        rw [this] at hq
        injection hq with hq
        injection hq with hq
        rw [hq, lookupKV_dictInsert_self]
      · rw [lookupKV_dictInsert_ne _ hqr]
        exact hfs
    | symlink s => exact hfs
    | dir ces => exact hfs

theorem collectDir_foldl_preserves {base_dir : Entry} {q : List String}
    {co : Option String} {es : List (String × Entry)} {sp : List String}
    (hbase : base_dir.lookup sp = some (.dir es))
    (hq : base_dir.lookup q = some (.file co)) :
    ∀ (L : List (List String)) (fs : List (List String × String)),
    lookupKV fs q = some (collectValue co) →
    lookupKV (L.foldl (collectDirStep es sp) fs) q
      = some (collectValue co) := by
  intro L
  induction L with
  | nil => intro fs h; exact h
  | cons r0 rest ih =>
    intro fs h
    rw [List.foldl_cons]
    exact ih _ (collectDirStep_preserves hbase hq fs r0 h)

theorem collectDirStep_covers {base_dir : Entry}
    {co : Option String} {es : List (String × Entry)} {sp r : List String}
    (hbase : base_dir.lookup sp = some (.dir es))
    (hl : (Entry.dir es).lookup r = some (.file co)) :
    ∀ (L : List (List String)) (fs : List (List String × String)),
    r ∈ L →
    lookupKV (L.foldl (collectDirStep es sp) fs) (sp ++ r)
      = some (collectValue co) := by
  have hq : base_dir.lookup (sp ++ r) = some (.file co) := by
    rw [lookup_append, hbase, Option.some_bind]
    exact hl
  intro L
  induction L with
  | nil => intro fs h; simp at h
  | cons r0 rest ih =>
    intro fs hmem
    rw [List.foldl_cons]
    rcases List.mem_cons.mp hmem with heq | hmem2
    · subst heq
      have h1 : lookupKV (collectDirStep es sp fs r) (sp ++ r)
          = some (collectValue co) := by
        rw [collectDirStep, hl, lookupKV_dictInsert_self]
      exact collectDir_foldl_preserves hbase hq rest _ h1
    · exact ih (collectDirStep es sp fs r0) hmem2

theorem collectStep_preserves {base_dir : Entry} {q : List String}
    {co : Option String} (hsf : base_dir.symlinkFree = true)
    (hq : base_dir.lookup q = some (.file co)) :
    ∀ (files : List (List String × String)) (sp : List String),
    lookupKV files q = some (collectValue co) →
    lookupKV (collectStep base_dir files sp) q = some (collectValue co) := by
  intro files sp hfiles
  rw [collectStep]
  by_cases he : base_dir.existsAt sp
  · rw [if_pos he]
    by_cases hif : base_dir.isFileAt sp
    · rw [if_pos hif, show maxLinkDepth = 39 + 1 from rfl,
        resolveAt_eq_lookup hsf]
      cases hl : base_dir.lookup sp with
      | none => exact hfiles
      | some e =>
        cases e with
        | file co2 =>
          by_cases hqsp : q = sp
          · subst hqsp
            rw [hl] at hq
            injection hq with hq
            injection hq with hq
            rw [hq, lookupKV_dictInsert_self]
          · rw [lookupKV_dictInsert_ne _ hqsp]
            exact hfiles
        | symlink s => exact hfiles
        | dir ces => exact hfiles
    · rw [if_neg hif, show maxLinkDepth = 39 + 1 from rfl,
        resolveAt_eq_lookup hsf]
      cases hl : base_dir.lookup sp with
      | none => exact hfiles
      | some e =>
        cases e with
        | file co2 => exact hfiles
        | symlink s => exact hfiles
        | dir ces =>
          exact collectDir_foldl_preserves hl hq _ files hfiles
  · rw [if_neg he]
    exact hfiles

theorem collect_foldl_preserves {base_dir : Entry} {q : List String}
    {co : Option String} (hsf : base_dir.symlinkFree = true)
    (hq : base_dir.lookup q = some (.file co)) :
    ∀ (sps : List (List String)) (files : List (List String × String)),
    lookupKV files q = some (collectValue co) →
    lookupKV (sps.foldl (collectStep base_dir) files) q
      = some (collectValue co) := by
  intro sps
  induction sps with
  | nil => intro files h; exact h
  | cons sp rest ih =>
    intro files h
    rw [List.foldl_cons]
    exact ih _ (collectStep_preserves hsf hq files sp h)

/-- C9: collect_files records every readable file under its relative
path with its text content, and every file whose content cannot be read
as text with the binary sentinel, never omitting the entry: for a sync
path that is itself a file, and for every file below a directory sync
path, the resulting snapshot maps the relative path to the text content
when the read succeeds and to the sentinel string when it fails. -/
theorem collect_files_records (base_dir : Entry)
    (sync_paths : List (List String))
    (hsf : base_dir.symlinkFree = true) :
    (collectValue none = "<binary>" ∧ ∀ c, collectValue (some c) = c)
    ∧ (∀ sp ∈ sync_paths, ∀ co, base_dir.lookup sp = some (.file co) →
      lookupKV (collect_files base_dir sync_paths) sp
        = some (collectValue co))
    ∧ (∀ sp ∈ sync_paths, ∀ es r co, base_dir.lookup sp = some (.dir es) →
      (Entry.dir es).lookup r = some (.file co) →
      lookupKV (collect_files base_dir sync_paths) (sp ++ r)
        = some (collectValue co)) := by
  refine ⟨⟨rfl, fun c => rfl⟩, ?_, ?_⟩
  · rw [collect_files_eq]
    have main : ∀ (sps : List (List String))
        (files : List (List String × String)),
        ∀ sp ∈ sps, ∀ co, base_dir.lookup sp = some (.file co) →
        lookupKV (sps.foldl (collectStep base_dir) files) sp
          = some (collectValue co) := by
      intro sps
      induction sps with
      | nil => intro files sp hsp; simp at hsp
      | cons sp0 rest ih =>
        intro files sp hsp co hlook
        rw [List.foldl_cons]
        rcases List.mem_cons.mp hsp with heq | hmem
        · subst heq
          have hcov : lookupKV (collectStep base_dir files sp) sp
              = some (collectValue co) := by
            rw [collectStep,
              if_pos (by rw [existsAt_eq_lookup hsf, hlook]; rfl),
              if_pos (by rw [isFileAt_eq_lookup hsf, hlook]),
              show maxLinkDepth = 39 + 1 from rfl,
              resolveAt_eq_lookup hsf, hlook, lookupKV_dictInsert_self]
          exact collect_foldl_preserves hsf hlook rest _ hcov
        · exact ih (collectStep base_dir files sp0) sp hmem co hlook
    exact main sync_paths []
  · rw [collect_files_eq]
    have main : ∀ (sps : List (List String))
        (files : List (List String × String)),
        ∀ sp ∈ sps, ∀ es r co, base_dir.lookup sp = some (.dir es) →
        (Entry.dir es).lookup r = some (.file co) →
        lookupKV (sps.foldl (collectStep base_dir) files) (sp ++ r)
          = some (collectValue co) := by
      intro sps
      induction sps with
      | nil => intro files sp hsp; simp at hsp
      | cons sp0 rest ih =>
        intro files sp hsp es r co hdir hfile
        rw [List.foldl_cons]
        have hq : base_dir.lookup (sp ++ r) = some (.file co) := by
          rw [lookup_append, hdir, Option.some_bind]
          exact hfile
        rcases List.mem_cons.mp hsp with heq | hmem
        · subst heq
          have hcov : lookupKV (collectStep base_dir files sp) (sp ++ r)
              = some (collectValue co) := by
            rw [collectStep,
              if_pos (by rw [existsAt_eq_lookup hsf, hdir]; rfl),
              if_neg (by rw [isFileAt_eq_lookup hsf, hdir]; simp),
              show maxLinkDepth = 39 + 1 from rfl,
              resolveAt_eq_lookup hsf, hdir]
            exact collectDirStep_covers hdir hfile (filePaths es) files
              (lookup_file_mem_filePaths r es hfile)
          exact collect_foldl_preserves hsf hq rest _ hcov
        · exact ih (collectStep base_dir files sp0) sp hmem es r co hdir hfile
    exact main sync_paths []

/-- Witness for C9: a readable file and an unreadable file below one
directory sync path are both recorded, the latter with the sentinel. -/
theorem collect_files_records_witness :
    lookupKV (collect_files
      (.dir [("conf", .dir [("bin", .file none), ("txt", .file (some "hi"))])])
      [["conf"]]) (["conf"] ++ ["bin"]) = some (collectValue none)
    ∧ lookupKV (collect_files
      (.dir [("conf", .dir [("bin", .file none), ("txt", .file (some "hi"))])])
      [["conf"]]) (["conf"] ++ ["txt"]) = some (collectValue (some "hi")) := by
  have h := collect_files_records
    (.dir [("conf", .dir [("bin", .file none), ("txt", .file (some "hi"))])])
    [["conf"]]
    (by simp [Entry.symlinkFree, symlinkFreeList])
  constructor
  · exact h.2.2 ["conf"] (by simp) _ ["bin"] none rfl rfl
  · exact h.2.2 ["conf"] (by simp) _ ["txt"] (some "hi") rfl rfl

/-! ## prepare_staging on symlink-free sources (claim C2) -/

mutual

theorem stageItem_symlinkFree_id (root : Entry) (rs : Bool) :
    ∀ (fuel : Nat) (e : Entry), e.symlinkFree = true →
    stageItem root rs fuel e = some e
  | fuel, .file c => fun _ => by simp [stageItem]
  | fuel, .symlink s => fun h => by simp [Entry.symlinkFree] at h
  | fuel, .dir es => fun h => by
    rw [show stageItem root rs fuel (.dir es)
      = some (.dir (stageEntries root rs fuel es)) from by simp [stageItem]]
    rw [stageEntries_symlinkFree_id root rs fuel es (by
      rw [Entry.symlinkFree] at h; exact h)]

theorem stageEntries_symlinkFree_id (root : Entry) (rs : Bool) :
    ∀ (fuel : Nat) (es : List (String × Entry)), symlinkFreeList es = true →
    stageEntries root rs fuel es = es
  | fuel, [] => fun _ => by simp [stageEntries]
  | fuel, (name, item) :: rest => fun h => by
    rw [symlinkFreeList, Bool.and_eq_true] at h
    rw [show stageEntries root rs fuel ((name, item) :: rest)
      = (match stageItem root rs fuel item with
        | some e => (name, e) :: stageEntries root rs fuel rest
        | none => stageEntries root rs fuel rest) from by
      simp [stageEntries]]
    rw [stageItem_symlinkFree_id root rs fuel item h.1,
      stageEntries_symlinkFree_id root rs fuel rest h.2]

end

/-- On a symlink-free source tree, one staging iteration inserts the
source subtree at the sync path verbatim, or skips a missing path. -/
theorem stageOne_symlinkFree (source_dir : Entry)
    (hsf : source_dir.symlinkFree = true) (rs : Bool)
    (st : Entry) (sp : List String) :
    stageOne source_dir rs st sp
      = match source_dir.lookup sp with
        | none => st
        | some e => st.insertAt sp e := by
  unfold stageOne
  rw [existsAt_eq_lookup hsf, show maxLinkDepth = 39 + 1 from rfl,
    resolveAt_eq_lookup hsf]
  cases hl : source_dir.lookup sp with
  | none => simp
  | some e =>
    cases e with
    | file c => simp
    | symlink s =>
      have := symlinkFree_lookup hsf hl
      simp [Entry.symlinkFree] at this
    | dir es =>
      have hes : symlinkFreeList es = true := by
        have := symlinkFree_lookup hsf hl
        rw [Entry.symlinkFree] at this
        exact this
      simp only [Option.isSome_some, if_true]
      rw [stageEntries_symlinkFree_id source_dir rs stageFuel es hes]

/-- The shape agreement between a staged entry and the source entry at
the same path: staged files carry the source content verbatim, staged
directories sit where the source has a directory, and nothing staged is
a symlink. -/
def stagedShape : Entry → Entry → Prop
  | .file c, e2 => e2 = .file c
  | .dir _, e2 => ∃ es2, e2 = .dir es2
  | .symlink _, _ => False

theorem stagedShape_refl {e : Entry} (h : e.symlinkFree = true) :
    stagedShape e e := by
  cases e with
  | file c => rfl
  | dir es => exact ⟨es, rfl⟩
  | symlink s => simp [Entry.symlinkFree] at h

/-- The invariant the staging fold maintains: the staging root is a
directory, the staging tree is symlink-free, and everything staged so
far agrees in shape and file content with the source tree. -/
def stagingInv (source_dir st : Entry) : Prop :=
  (∃ es0, st = .dir es0) ∧ st.symlinkFree = true ∧
  ∀ q e, q ≠ [] → st.lookup q = some e →
    ∃ e2, source_dir.lookup q = some e2 ∧ stagedShape e e2

theorem stagingInv_init (source_dir : Entry) :
    stagingInv source_dir (.dir []) := by
  refine ⟨⟨[], rfl⟩, rfl, ?_⟩
  intro q e hq hl
  cases q with
  | nil => exact absurd rfl hq
  | cons k r =>
    rw [lookup_dir_none (by rfl : findEntry k [] = none)] at hl
    simp at hl

theorem stagingInv_writeClear {source_dir st : Entry} {sp : List String}
    {esp : Entry} (hinv : stagingInv source_dir st)
    (hsp : source_dir.lookup sp = some esp) :
    writeClear st sp := by
  obtain ⟨⟨es0, rfl⟩, hsf, hagree⟩ := hinv
  intro i hi
  by_cases hi0 : i = 0
  · rw [hi0, List.take_zero, lookup_nil]; rfl
  · have htake : sp = sp.take i ++ sp.drop i := (List.take_append_drop i sp).symm
    have hdrop : sp.drop i ≠ [] := by
      intro habs
      rw [List.drop_eq_nil_iff] at habs
      omega
    have hlen : (sp.take i).length = i := by
      rw [List.length_take]
      omega
    have hq : sp.take i ≠ [] := by
      intro habs
      rw [habs] at hlen
      simp at hlen
      omega
    obtain ⟨x, r2, hxr⟩ : ∃ x r2, sp.drop i = x :: r2 := by
      cases hd : sp.drop i with
      | nil => exact absurd hd hdrop
      | cons x r2 => exact ⟨x, r2, rfl⟩
    have hdir : ∃ es2, source_dir.lookup (sp.take i) = some (.dir es2) := by
      have hsp2 : source_dir.lookup (sp.take i ++ x :: r2) = some esp := by
        rw [← hxr, ← htake]
        exact hsp
      exact lookup_deep_dir hsp2
    obtain ⟨es2, hdir⟩ := hdir
    cases hst : (Entry.dir es0).lookup (sp.take i) with
    | none => simp [noneOrDirB]
    | some e =>
      obtain ⟨e2, he2, hshape⟩ := hagree (sp.take i) e hq hst
      rw [hdir] at he2
      injection he2 with he2
      cases e with
      | file c => rw [← he2] at hshape; simp [stagedShape] at hshape
      | symlink s => simp [stagedShape] at hshape
      | dir es3 => simp [noneOrDirB]

theorem underPath_trichotomy (p q : List String) :
    (∃ r, q = p ++ r)
    ∨ (∃ r, r ≠ [] ∧ p = q ++ r)
    ∨ (underPathB p q = false ∧ underPathB q p = false) := by
  by_cases h1 : underPathB p q = true
  · exact Or.inl (underPathB_dest p q h1)
  · by_cases h2 : underPathB q p = true
    · obtain ⟨r, hr⟩ := underPathB_dest q p h2
      refine Or.inr (Or.inl ⟨r, ?_, hr⟩)
      intro habs
      rw [habs, List.append_nil] at hr
      rw [hr, underPathB_refl] at h1
      exact h1 rfl
    · exact Or.inr (Or.inr ⟨by
        cases h : underPathB p q
        · rfl
        · exact absurd h h1, by
        cases h : underPathB q p
        · rfl
        · exact absurd h h2⟩)

theorem stagingInv_step {source_dir st : Entry} {sp : List String}
    (hsf : source_dir.symlinkFree = true)
    (hinv : stagingInv source_dir st) (hsp : sp ≠ []) (rs : Bool) :
    stagingInv source_dir (stageOne source_dir rs st sp) := by
  rw [stageOne_symlinkFree source_dir hsf]
  cases hl : source_dir.lookup sp with
  | none => exact hinv
  | some esp =>
    have hespsf : esp.symlinkFree = true := symlinkFree_lookup hsf hl
    have hwc : writeClear st sp := stagingInv_writeClear hinv hl
    obtain ⟨⟨es0, hst0⟩, hstsf, hagree⟩ := hinv
    refine ⟨?_, ?_, ?_⟩
    · rw [hst0]
      exact insertAt_dir_is_dir es0 sp esp hsp
    · exact insertAt_symlinkFree sp st esp hstsf hespsf
    · intro q e hq hlq
      rcases underPath_trichotomy sp q with ⟨r, rfl⟩ | ⟨r, hr, rfl⟩ | ⟨h1, h2⟩
      · rw [lookup_insertAt_append esp sp st r hwc] at hlq
        refine ⟨e, ?_, stagedShape_refl (symlinkFree_lookup hespsf hlq)⟩
        rw [lookup_append, hl, Option.some_bind]
        exact hlq
      · obtain ⟨es2, hpar⟩ := lookup_insertAt_parents esp q st r hwc hr
        rw [hpar] at hlq
        injection hlq with hlq
        obtain ⟨x, r2, rfl⟩ : ∃ x r2, r = x :: r2 := by
          cases hd : r with
          | nil => exact absurd hd hr
          | cons x r2 => exact ⟨x, r2, rfl⟩
        obtain ⟨esd, hdq⟩ := lookup_deep_dir hl
        refine ⟨.dir esd, hdq, ?_⟩
        rw [← hlq]
        exact ⟨esd, rfl⟩
      · rw [lookup_insertAt_other esp sp st q h1 h2] at hlq
        exact hagree q e hq hlq

/-- What the finished staging tree guarantees at one sync path: a source
file is staged with its content verbatim, any other existing source
entry is staged as present, and a missing source path imposes nothing. -/
def stagedDone (source_dir st : Entry) (sp : List String) : Prop :=
  match source_dir.lookup sp with
  | some (.file c) => st.lookup sp = some (.file c)
  | some _ => (st.lookup sp).isSome = true
  | none => True

theorem stagedDone_establish {source_dir st : Entry} {sp : List String}
    (hsf : source_dir.symlinkFree = true)
    (hinv : stagingInv source_dir st) (rs : Bool) :
    stagedDone source_dir (stageOne source_dir rs st sp) sp := by
  rw [stageOne_symlinkFree source_dir hsf]
  unfold stagedDone
  cases hl : source_dir.lookup sp with
  | none => trivial
  | some esp =>
    have hins : (st.insertAt sp esp).lookup sp = some esp := by
      have := lookup_insertAt_append esp sp st []
        (stagingInv_writeClear hinv hl)
      rw [List.append_nil] at this
      rw [this, lookup_nil]
    cases esp with
    | file c => exact hins
    | dir es => rw [hins]; rfl
    | symlink s => rw [hins]; rfl

theorem stageOne_symlinkFree_some {source_dir : Entry}
    (hsf : source_dir.symlinkFree = true) {sp' : List String} {esp2 : Entry}
    (hl2 : source_dir.lookup sp' = some esp2) (rs : Bool) (st : Entry) :
    stageOne source_dir rs st sp' = st.insertAt sp' esp2 := by
  rw [stageOne_symlinkFree source_dir hsf, hl2]

theorem stageOne_symlinkFree_none {source_dir : Entry}
    (hsf : source_dir.symlinkFree = true) {sp' : List String}
    (hl2 : source_dir.lookup sp' = none) (rs : Bool) (st : Entry) :
    stageOne source_dir rs st sp' = st := by
  rw [stageOne_symlinkFree source_dir hsf, hl2]

theorem stagedDone_preserve {source_dir st : Entry} {sp sp' : List String}
    (hsf : source_dir.symlinkFree = true)
    (hinv : stagingInv source_dir st)
    (hdone : stagedDone source_dir st sp) (rs : Bool) :
    stagedDone source_dir (stageOne source_dir rs st sp') sp := by
  cases hl2 : source_dir.lookup sp' with
  | none => rw [stageOne_symlinkFree_none hsf hl2]; exact hdone
  | some esp2 =>
    rw [stageOne_symlinkFree_some hsf hl2]
    have hwc : writeClear st sp' := stagingInv_writeClear hinv hl2
    rcases underPath_trichotomy sp' sp with ⟨r, rfl⟩ | ⟨r, hr, rfl⟩ | ⟨h1, h2⟩
    · have hins : (st.insertAt sp' esp2).lookup (sp' ++ r)
          = esp2.lookup r := lookup_insertAt_append esp2 sp' st r hwc
      have hsrc : source_dir.lookup (sp' ++ r) = esp2.lookup r := by
        rw [lookup_append, hl2, Option.some_bind]
      unfold stagedDone
      rw [hsrc, hins]
      cases esp2.lookup r with
      | none => trivial
      | some e =>
        cases e with
        | file c => rfl
        | dir es => rfl
        | symlink s => rfl
    · unfold stagedDone at hdone ⊢
      cases hl : source_dir.lookup sp with
      | none => trivial
      | some esp =>
        cases esp with
        | file c =>
          rw [hl] at hdone
          have hdone2 : st.lookup sp = some (.file c) := hdone
          show (st.insertAt (sp ++ r) esp2).lookup sp = some (.file c)
          rw [lookup_insertAt_sub esp2 sp st r hr _ hdone2]
          obtain ⟨x, y, rfl⟩ : ∃ x y, r = x :: y := by
            cases hd : r with
            | nil => exact absurd hd hr
            | cons x y => exact ⟨x, y, rfl⟩
          rw [insertAt_file]
        | dir es =>
          rw [hl] at hdone
          have hdone2 : (st.lookup sp).isSome = true := hdone
          show ((st.insertAt (sp ++ r) esp2).lookup sp).isSome = true
          cases hv : st.lookup sp with
          | none => rw [hv] at hdone2; simp at hdone2
          | some v =>
            rw [lookup_insertAt_sub esp2 sp st r hr v hv]
            rfl
        | symlink s =>
          rw [hl] at hdone
          have hdone2 : (st.lookup sp).isSome = true := hdone
          show ((st.insertAt (sp ++ r) esp2).lookup sp).isSome = true
          cases hv : st.lookup sp with
          | none => rw [hv] at hdone2; simp at hdone2
          | some v =>
            rw [lookup_insertAt_sub esp2 sp st r hr v hv]
            rfl
    · unfold stagedDone at hdone ⊢
      rw [lookup_insertAt_other esp2 sp' st sp h1 h2]
      exact hdone

theorem stagingInv_fold {source_dir : Entry} (rs : Bool)
    (hsf : source_dir.symlinkFree = true) :
    ∀ (sps : List (List String)) (st : Entry), stagingInv source_dir st →
    (∀ sp ∈ sps, sp ≠ []) →
    stagingInv source_dir (sps.foldl (stageOne source_dir rs) st) := by
  intro sps
  induction sps with
  | nil => intro st hinv _; exact hinv
  | cons sp0 rest ih =>
    intro st hinv hne
    rw [List.foldl_cons]
    exact ih _ (stagingInv_step hsf hinv (hne sp0 (by simp)) rs)
      (fun sp hsp => hne sp (by simp [hsp]))

theorem stagedDone_fold {source_dir : Entry} {sp : List String} (rs : Bool)
    (hsf : source_dir.symlinkFree = true) :
    ∀ (sps : List (List String)) (st : Entry), stagingInv source_dir st →
    (∀ sp2 ∈ sps, sp2 ≠ []) → stagedDone source_dir st sp →
    stagedDone source_dir (sps.foldl (stageOne source_dir rs) st) sp := by
  intro sps
  induction sps with
  | nil => intro st _ _ h; exact h
  | cons sp0 rest ih =>
    intro st hinv hne hdone
    rw [List.foldl_cons]
    exact ih _ (stagingInv_step hsf hinv (hne sp0 (by simp)) rs)
      (fun sp2 hsp2 => hne sp2 (by simp [hsp2]))
      (stagedDone_preserve hsf hinv hdone rs)

theorem stagedDone_all {source_dir : Entry} (rs : Bool)
    (hsf : source_dir.symlinkFree = true) :
    ∀ (sps : List (List String)) (st : Entry), stagingInv source_dir st →
    (∀ sp2 ∈ sps, sp2 ≠ []) → ∀ sp ∈ sps,
    stagedDone source_dir (sps.foldl (stageOne source_dir rs) st) sp := by
  intro sps
  induction sps with
  | nil => intro st _ _ sp hsp; simp at hsp
  | cons sp0 rest ih =>
    intro st hinv hne sp hsp
    rw [List.foldl_cons]
    rcases List.mem_cons.mp hsp with heq | hmem
    · rw [heq]
      exact stagedDone_fold rs hsf rest _
        (stagingInv_step hsf hinv (hne sp0 (by simp)) rs)
        (fun sp2 hsp2 => hne sp2 (by simp [hsp2]))
        (heq ▸ stagedDone_establish hsf hinv rs)
    · exact ih _ (stagingInv_step hsf hinv (hne sp0 (by simp)) rs)
        (fun sp2 hsp2 => hne sp2 (by simp [hsp2])) sp hmem

/-- C2: for a symlink-free source tree, prepare_staging returns a
staging tree containing exactly those sync paths that exist in the
source (a missing sync path is skipped without error and stays absent
from the staging area), and every sync path that is a plain file in the
source is staged with byte-for-byte identical content. -/
theorem prepare_staging_spec (source_dir : Entry)
    (sync_paths : List (List String)) (resolve_symlinks : Bool)
    (hsf : source_dir.symlinkFree = true)
    (hne : ∀ sp ∈ sync_paths, sp ≠ []) :
    ∀ sp ∈ sync_paths,
    (((prepare_staging source_dir sync_paths resolve_symlinks).lookup sp).isSome
      = (source_dir.lookup sp).isSome)
    ∧ ∀ c, source_dir.lookup sp = some (.file c) →
      (prepare_staging source_dir sync_paths resolve_symlinks).lookup sp
        = some (.file c) := by
  intro sp hsp
  have hfold : prepare_staging source_dir sync_paths resolve_symlinks
      = sync_paths.foldl (stageOne source_dir resolve_symlinks)
        (.dir []) := rfl
  have hinv := stagingInv_fold resolve_symlinks hsf sync_paths (.dir [])
    (stagingInv_init source_dir) hne
  have hdone := stagedDone_all resolve_symlinks hsf sync_paths (.dir [])
    (stagingInv_init source_dir) hne sp hsp
  rw [hfold]
  set st := sync_paths.foldl (stageOne source_dir resolve_symlinks)
    (.dir []) with hst
  constructor
  · unfold stagedDone at hdone
    cases hl : source_dir.lookup sp with
    | none =>
      cases hstl : st.lookup sp with
      | none => rfl
      | some e =>
        obtain ⟨e2, he2, _⟩ := hinv.2.2 sp e (hne sp hsp) hstl
        rw [hl] at he2
        simp at he2
    | some esp =>
      cases esp with
      | file c => rw [hl] at hdone; rw [hdone]
      | dir es =>
        rw [hl] at hdone
        exact hdone
      | symlink s =>
        rw [hl] at hdone
        exact hdone
  · intro c hc
    unfold stagedDone at hdone
    rw [hc] at hdone
    exact hdone

/-- Witness for C2: the spec scenario, a source with one file staged
under sync paths naming the file and a missing path; the file is staged
verbatim and the missing path stays absent. -/
theorem prepare_staging_spec_witness :
    (prepare_staging (.dir [("CLAUDE.md", .file (some "# My Config\n"))])
      [["CLAUDE.md"], ["nonexistent.txt"]] false).lookup ["CLAUDE.md"]
      = some (.file (some "# My Config\n"))
    ∧ ((prepare_staging (.dir [("CLAUDE.md", .file (some "# My Config\n"))])
      [["CLAUDE.md"], ["nonexistent.txt"]] false).lookup
        ["nonexistent.txt"]).isSome = false := by
  have h := prepare_staging_spec
    (.dir [("CLAUDE.md", .file (some "# My Config\n"))])
    [["CLAUDE.md"], ["nonexistent.txt"]] false
    (by simp [Entry.symlinkFree, symlinkFreeList])
    (by intro sp hsp
        fin_cases hsp <;> simp)
  constructor
  · exact (h ["CLAUDE.md"] (by simp)).2 _ rfl
  · rw [(h ["nonexistent.txt"] (by simp)).1]
    rfl

/-! ## deploy: step analysis (claims C5 and C6) -/

theorem wf_lookup {e : Entry} :
    ∀ {t : Entry} {p : List String}, t.wf = true →
    t.lookup p = some e → e.wf = true := by
  intro t p
  induction p generalizing t with
  | nil =>
    intro ht h
    rw [lookup_nil] at h
    injection h with h
    rw [← h]; exact ht
  | cons k p2 ih =>
    intro ht h
    cases t with
    | file c => simp [lookup_file] at h
    | symlink s => simp [lookup_symlink] at h
    | dir es =>
      obtain ⟨hsort, hlist⟩ := wf_dir_parts ht
      cases hf : findEntry k es with
      | none => rw [lookup_dir_none hf] at h; simp at h
      | some child =>
        rw [lookup_dir_found hf] at h
        exact ih (wfList_findEntry hlist hf) h

theorem lookup_deep_dir_of_ne {t : Entry} {q r : List String} {e : Entry}
    (h : t.lookup (q ++ r) = some e) (hr : r ≠ []) :
    ∃ es, t.lookup q = some (.dir es) := by
  obtain ⟨x, r2, rfl⟩ : ∃ x r2, r = x :: r2 := by
    cases hd : r with
    | nil => exact absurd hd hr
    | cons x r2 => exact ⟨x, r2, rfl⟩
  exact lookup_deep_dir h

theorem cross_file_none {t : Entry} {p : List String} {c : Option String}
    (h : t.lookup p = some (.file c)) {r : List String} (hr : r ≠ []) :
    t.lookup (p ++ r) = none := by
  rw [lookup_append, h, Option.some_bind]
  obtain ⟨x, r2, rfl⟩ : ∃ x r2, r = x :: r2 := by
    cases hd : r with
    | nil => exact absurd hd hr
    | cons x r2 => exact ⟨x, r2, rfl⟩
  rw [lookup_file]

theorem divergeAppend :
    ∀ (p q : List String), underPathB p q = false → underPathB q p = false →
    ∀ (a b : List String),
    underPathB (p ++ a) (q ++ b) = false
    ∧ underPathB (q ++ b) (p ++ a) = false := by
  intro p
  induction p with
  | nil => intro q h1 _; simp [underPathB] at h1
  | cons k p2 ih =>
    intro q h1 h2 a b
    cases q with
    | nil => simp [underPathB] at h2
    | cons k2 q2 =>
      by_cases hk : k = k2
      · subst hk
        rw [underPathB] at h1 h2
        simp only [beq_self_eq_true, Bool.true_and] at h1 h2
        have := ih q2 h1 h2 a b
        constructor
        · rw [List.cons_append, List.cons_append, underPathB]
          simp [this.1]
        · rw [List.cons_append, List.cons_append, underPathB]
          simp [this.2]
      · constructor
        · rw [List.cons_append, List.cons_append, underPathB]
          simp [hk]
        · rw [List.cons_append, List.cons_append, underPathB]
          simp [Ne.symm hk]

/-- The state component of one deploy iteration; the deployed-list
component is handled separately. -/
def deployState (staging_dir t : Entry) (sp : List String) : Entry :=
  (deployStep staging_dir (t, []) sp).1

theorem deployStep_eq (staging_dir t : Entry) (d : List (List String))
    (sp : List String) :
    deployStep staging_dir (t, d) sp
      = (deployState staging_dir t sp,
         if staging_dir.existsAt sp then d ++ [sp] else d) := by
  unfold deployState deployStep
  by_cases he : staging_dir.existsAt sp
  · rw [if_pos he]
    by_cases hd : staging_dir.isDirAt sp
    · simp [hd, he]
    · simp [hd, he]
  · simp [he]

theorem deployState_none {staging_dir : Entry}
    (hssf : staging_dir.symlinkFree = true) {sp : List String}
    (hl : staging_dir.lookup sp = none) (t : Entry) :
    deployState staging_dir t sp = t := by
  unfold deployState deployStep
  rw [existsAt_eq_lookup hssf, hl]
  rfl

theorem deployState_dir {staging_dir : Entry}
    (hssf : staging_dir.symlinkFree = true) {sp : List String}
    {Sd : List (String × Entry)}
    (hl : staging_dir.lookup sp = some (.dir Sd)) (t : Entry) :
    deployState staging_dir t sp
      = (if t.existsAt sp then t.removeAt sp else t).insertAt sp
          (.dir Sd) := by
  unfold deployState deployStep
  rw [existsAt_eq_lookup hssf, hl, isDirAt_eq_lookup hssf, hl,
    show maxLinkDepth = 39 + 1 from rfl, resolveAt_eq_lookup hssf, hl]
  rfl

theorem deployState_file {staging_dir : Entry}
    (hssf : staging_dir.symlinkFree = true) {sp : List String}
    {c : Option String} (hl : staging_dir.lookup sp = some (.file c))
    (t : Entry) :
    deployState staging_dir t sp = copyFileToTarget t sp (.file c) := by
  unfold deployState deployStep
  rw [existsAt_eq_lookup hssf, hl, isDirAt_eq_lookup hssf, hl,
    show maxLinkDepth = 39 + 1 from rfl, resolveAt_eq_lookup hssf, hl]
  rfl

theorem copyFileToTarget_dir {t : Entry} {sp : List String}
    (htsf : t.symlinkFree = true) {ds : List (String × Entry)}
    (hd : t.lookup sp = some (.dir ds)) (e : Entry) :
    copyFileToTarget t sp e
      = t.insertAt (sp ++ [lastComponent sp]) e := by
  unfold copyFileToTarget
  rw [isDirAt_eq_lookup htsf, hd]
  rfl

theorem copyFileToTarget_other {t : Entry} {sp : List String}
    (htsf : t.symlinkFree = true)
    (hd : ∀ ds, t.lookup sp ≠ some (.dir ds)) (e : Entry) :
    copyFileToTarget t sp e = t.insertAt sp e := by
  unfold copyFileToTarget
  rw [isDirAt_eq_lookup htsf]
  cases hl : t.lookup sp with
  | none => rfl
  | some e2 =>
    cases e2 with
    | file c => rfl
    | symlink s => rfl
    | dir ds => exact absurd hl (hd ds)

/-- What the target tree guarantees at one sync path once the deploy
loop has processed it: a staged directory sits at the path wholesale, a
staged file sits either at the path or, when the destination was an
existing directory, inside it under the base filename. -/
def deployDone (staging_dir t : Entry) (sp : List String) : Prop :=
  match staging_dir.lookup sp with
  | none => True
  | some (.dir Sd) => t.lookup sp = some (.dir Sd)
  | some (.file c) =>
    t.lookup sp = some (.file c)
    ∨ ∃ ds, t.lookup sp = some (.dir ds)
        ∧ t.lookup (sp ++ [lastComponent sp]) = some (.file c)
  | some (.symlink _) => True

/-- A deploy iteration is a no-op on a target already in its final
shape for that sync path. -/
theorem deployState_fixpoint {staging_dir t : Entry} {sp : List String}
    (hssf : staging_dir.symlinkFree = true) (htwf : t.wf = true)
    (htsf : t.symlinkFree = true) (hdone : deployDone staging_dir t sp) :
    deployState staging_dir t sp = t := by
  unfold deployDone at hdone
  cases hl : staging_dir.lookup sp with
  | none => exact deployState_none hssf hl t
  | some S =>
    rw [hl] at hdone
    cases S with
    | symlink s =>
      have := symlinkFree_lookup hssf hl
      simp [Entry.symlinkFree] at this
    | dir Sd =>
      rw [deployState_dir hssf hl t,
        if_pos (by rw [existsAt_eq_lookup htsf, hdone]; rfl)]
      exact removeAt_insertAt_self sp t (.dir Sd) htwf hdone
    | file c =>
      rw [deployState_file hssf hl t]
      rcases hdone with hfile | ⟨ds, hdir, hinto⟩
      · rw [copyFileToTarget_other htsf
          (by intro ds habs; rw [hfile] at habs; simp at habs) (.file c)]
        exact insertAt_lookup_self_eq sp t (.file c) htwf hfile
      · rw [copyFileToTarget_dir htsf hdir (.file c)]
        exact insertAt_lookup_self_eq _ t (.file c) htwf hinto

theorem writeClear_removeAt {t : Entry} {sp : List String}
    (hwc : writeClear t sp) : writeClear (t.removeAt sp) sp := by
  intro i hi
  have htake : sp = sp.take i ++ sp.drop i := (List.take_append_drop i sp).symm
  have hdrop : sp.drop i ≠ [] := by
    intro habs
    rw [List.drop_eq_nil_iff] at habs
    omega
  have h0 := hwc i hi
  rw [show t.removeAt sp = t.removeAt (sp.take i ++ sp.drop i) from by
    rw [← htake]]
  rw [lookup_removeAt_sub (sp.take i) t (sp.drop i) hdrop]
  cases hq : t.lookup (sp.take i) with
  | none => rfl
  | some X =>
    rw [hq] at h0
    cases X with
    | file c => simp [noneOrDirB] at h0
    | symlink s => simp [noneOrDirB] at h0
    | dir es =>
      obtain ⟨es2, hshape⟩ := removeAt_dir_is_dir es (sp.drop i)
      rw [show Option.map (fun X => X.removeAt (sp.drop i))
        (some (Entry.dir es)) = some ((Entry.dir es).removeAt (sp.drop i))
        from rfl, hshape]
      rfl

theorem writeClear_extend {t : Entry} {sp : List String}
    {ds : List (String × Entry)} (hwc : writeClear t sp)
    (hd : t.lookup sp = some (.dir ds)) (x : String) :
    writeClear t (sp ++ [x]) := by
  intro i hi
  rw [List.length_append, List.length_singleton] at hi
  by_cases hilen : i < sp.length
  · rw [List.take_append_of_le_length (by omega)]
    exact hwc i hilen
  · have : i = sp.length := by omega
    rw [this, List.take_left]
    rw [hd]
    rfl

/-- The per-path compatibility between the current target state and the
staging area that keeps every deploy write inside the error-free
fragment: the write path crosses only directories or absent entries, and
a staged directory never lands on a plain target file, which rmtree
would reject. -/
def deployCompat (staging_dir t : Entry) (sps : List (List String)) : Prop :=
  ∀ sp ∈ sps, ∀ S, staging_dir.lookup sp = some S →
    writeClear t sp
    ∧ (∀ Sd, S = .dir Sd → noneOrDirB (t.lookup sp) = true)

/-- The running invariant of the deploy fold. -/
def deployInv (staging_dir t : Entry) (sps : List (List String)) : Prop :=
  t.wf = true ∧ t.symlinkFree = true ∧ (∃ es, t = .dir es)
  ∧ deployCompat staging_dir t sps

theorem deployState_wf {staging_dir t : Entry} {sp : List String}
    (hsswf : staging_dir.wf = true) (hssf : staging_dir.symlinkFree = true)
    (htwf : t.wf = true) : (deployState staging_dir t sp).wf = true := by
  cases hl : staging_dir.lookup sp with
  | none => rw [deployState_none hssf hl]; exact htwf
  | some S =>
    cases S with
    | symlink s =>
      have := symlinkFree_lookup hssf hl
      simp [Entry.symlinkFree] at this
    | dir Sd =>
      rw [deployState_dir hssf hl]
      by_cases he : t.existsAt sp
      · rw [if_pos he]
        exact insertAt_wf sp _ _ (removeAt_wf sp t htwf) (wf_lookup hsswf hl)
      · rw [if_neg he]
        exact insertAt_wf sp _ _ htwf (wf_lookup hsswf hl)
    | file c =>
      rw [deployState_file hssf hl]
      unfold copyFileToTarget
      by_cases hd : t.isDirAt sp
      · rw [if_pos hd]
        exact insertAt_wf _ _ _ htwf rfl
      · rw [if_neg hd]
        exact insertAt_wf _ _ _ htwf rfl

theorem deployState_symlinkFree {staging_dir t : Entry} {sp : List String}
    (hssf : staging_dir.symlinkFree = true)
    (htsf : t.symlinkFree = true) :
    (deployState staging_dir t sp).symlinkFree = true := by
  cases hl : staging_dir.lookup sp with
  | none => rw [deployState_none hssf hl]; exact htsf
  | some S =>
    cases S with
    | symlink s =>
      have := symlinkFree_lookup hssf hl
      simp [Entry.symlinkFree] at this
    | dir Sd =>
      rw [deployState_dir hssf hl]
      by_cases he : t.existsAt sp
      · rw [if_pos he]
        exact insertAt_symlinkFree sp _ _ (removeAt_symlinkFree sp t htsf)
          (symlinkFree_lookup hssf hl)
      · rw [if_neg he]
        exact insertAt_symlinkFree sp _ _ htsf (symlinkFree_lookup hssf hl)
    | file c =>
      rw [deployState_file hssf hl]
      unfold copyFileToTarget
      by_cases hd : t.isDirAt sp
      · rw [if_pos hd]
        exact insertAt_symlinkFree _ _ _ htsf rfl
      · rw [if_neg hd]
        exact insertAt_symlinkFree _ _ _ htsf rfl

theorem deployState_root {staging_dir t : Entry} {sp : List String}
    (hssf : staging_dir.symlinkFree = true) (hsp : sp ≠ [])
    (hroot : ∃ es, t = .dir es) :
    ∃ es, deployState staging_dir t sp = .dir es := by
  obtain ⟨es0, rfl⟩ := hroot
  cases hl : staging_dir.lookup sp with
  | none => rw [deployState_none hssf hl]; exact ⟨es0, rfl⟩
  | some S =>
    cases S with
    | symlink s =>
      have := symlinkFree_lookup hssf hl
      simp [Entry.symlinkFree] at this
    | dir Sd =>
      rw [deployState_dir hssf hl]
      by_cases he : (Entry.dir es0).existsAt sp
      · rw [if_pos he]
        obtain ⟨es1, h1⟩ := removeAt_dir_is_dir es0 sp
        rw [h1]
        exact insertAt_dir_is_dir es1 sp _ hsp
      · rw [if_neg he]
        exact insertAt_dir_is_dir es0 sp _ hsp
    | file c =>
      rw [deployState_file hssf hl]
      unfold copyFileToTarget
      by_cases hd : (Entry.dir es0).isDirAt sp
      · rw [if_pos hd]
        exact insertAt_dir_is_dir es0 _ _ (by
          intro habs
          exact hsp (List.append_eq_nil.mp habs).1)
      · rw [if_neg hd]
        exact insertAt_dir_is_dir es0 sp _ hsp

/-- A deploy iteration leaves its own sync path in the done shape. -/
theorem deployDone_establish {staging_dir t : Entry} {sp : List String}
    (hssf : staging_dir.symlinkFree = true)
    (htwf : t.wf = true) (htsf : t.symlinkFree = true)
    (hcsp : ∀ S, staging_dir.lookup sp = some S →
      writeClear t sp ∧ (∀ Sd, S = .dir Sd → noneOrDirB (t.lookup sp) = true)) :
    deployDone staging_dir (deployState staging_dir t sp) sp := by
  unfold deployDone
  cases hl : staging_dir.lookup sp with
  | none => trivial
  | some S =>
    obtain ⟨hwc, hdc⟩ := hcsp S hl
    cases S with
    | symlink s =>
      have := symlinkFree_lookup hssf hl
      simp [Entry.symlinkFree] at this
    | dir Sd =>
      rw [deployState_dir hssf hl]
      by_cases he : t.existsAt sp
      · rw [if_pos he]
        have hwc2 : writeClear (t.removeAt sp) sp := writeClear_removeAt hwc
        have := lookup_insertAt_append (.dir Sd) sp (t.removeAt sp) [] hwc2
        rw [List.append_nil] at this
        rw [this, lookup_nil]
      · rw [if_neg he]
        have := lookup_insertAt_append (.dir Sd) sp t [] hwc
        rw [List.append_nil] at this
        rw [this, lookup_nil]
    | file c =>
      rw [deployState_file hssf hl]
      cases hdst : t.lookup sp with
      | some e =>
        cases e with
        | dir ds =>
          rw [copyFileToTarget_dir htsf hdst]
          refine Or.inr ?_
          have hwc2 : writeClear t (sp ++ [lastComponent sp]) :=
            writeClear_extend hwc hdst (lastComponent sp)
          have hins := lookup_insertAt_append (.file c)
            (sp ++ [lastComponent sp]) t [] hwc2
          rw [List.append_nil] at hins
          rw [hins, lookup_nil]
          have hsub := lookup_insertAt_sub (.file c) sp t [lastComponent sp]
            (by simp) (.dir ds) hdst
          rw [hsub]
          obtain ⟨ds2, hds2⟩ := insertAt_dir_is_dir ds [lastComponent sp]
            (.file c) (by simp)
          rw [hds2]
          exact ⟨ds2, rfl, rfl⟩
        | file c2 =>
          rw [copyFileToTarget_other htsf
            (by intro ds habs; rw [hdst] at habs; simp at habs) (.file c)]
          refine Or.inl ?_
          have := lookup_insertAt_append (.file c) sp t [] hwc
          rw [List.append_nil] at this
          rw [this, lookup_nil]
        | symlink s =>
          have := symlinkFree_lookup htsf hdst
          simp [Entry.symlinkFree] at this
      | none =>
        rw [copyFileToTarget_other htsf
          (by intro ds habs; rw [hdst] at habs; simp at habs) (.file c)]
        refine Or.inl ?_
        have := lookup_insertAt_append (.file c) sp t [] hwc
        rw [List.append_nil] at this
        rw [this, lookup_nil]

/-- A deploy iteration does not touch paths diverging from its sync
path. -/
theorem deployState_lookup_other {staging_dir t : Entry} {sp' q : List String}
    (hssf : staging_dir.symlinkFree = true) (htsf : t.symlinkFree = true)
    (h1 : underPathB sp' q = false) (h2 : underPathB q sp' = false) :
    (deployState staging_dir t sp').lookup q = t.lookup q := by
  cases hl' : staging_dir.lookup sp' with
  | none => rw [deployState_none hssf hl']
  | some S2 =>
    cases S2 with
    | symlink s =>
      have := symlinkFree_lookup hssf hl'
      simp [Entry.symlinkFree] at this
    | dir Sd2 =>
      rw [deployState_dir hssf hl']
      by_cases he : t.existsAt sp'
      · rw [if_pos he, lookup_insertAt_other _ sp' _ q h1 h2,
          lookup_removeAt_other sp' t q h1 h2]
      · rw [if_neg he, lookup_insertAt_other _ sp' _ q h1 h2]
    | file c2 =>
      rw [deployState_file hssf hl']
      unfold copyFileToTarget
      by_cases hd : t.isDirAt sp'
      · rw [if_pos hd]
        have hdiv := divergeAppend sp' q h1 h2 [lastComponent sp'] []
        rw [List.append_nil] at hdiv
        rw [lookup_insertAt_other _ _ _ q hdiv.1 hdiv.2]
      · rw [if_neg hd, lookup_insertAt_other _ sp' _ q h1 h2]

/-- A deploy iteration on another sync path keeps an already done sync
path in its done shape. -/
theorem deployDone_preserve {staging_dir t : Entry} {sp sp' : List String}
    (hsswf : staging_dir.wf = true) (hssf : staging_dir.symlinkFree = true)
    (htwf : t.wf = true) (htsf : t.symlinkFree = true)
    (hcsp2 : ∀ S, staging_dir.lookup sp' = some S →
      writeClear t sp'
      ∧ (∀ Sd, S = .dir Sd → noneOrDirB (t.lookup sp') = true))
    (hdone : deployDone staging_dir t sp) :
    deployDone staging_dir (deployState staging_dir t sp') sp := by
  cases hl2 : staging_dir.lookup sp' with
  | none => rw [deployState_none hssf hl2]; exact hdone
  | some S2 =>
    rcases underPath_trichotomy sp' sp with ⟨r, rfl⟩ | ⟨r, hr, rfl⟩ | ⟨h1, h2⟩
    · by_cases hre : r = []
      · subst hre
        rw [List.append_nil]
        exact deployDone_establish hssf htwf htsf hcsp2
      · cases S2 with
        | symlink s =>
          have := symlinkFree_lookup hssf hl2
          simp [Entry.symlinkFree] at this
        | file c2 =>
          unfold deployDone
          rw [cross_file_none hl2 hre]
          exact trivial
        | dir Sd2 =>
          obtain ⟨hwc2, _⟩ := hcsp2 _ hl2
          rw [deployState_dir hssf hl2]
          have hsrc : staging_dir.lookup (sp' ++ r)
              = (Entry.dir Sd2).lookup r := by
            rw [lookup_append, hl2, Option.some_bind]
          have hkey : ∀ t1 : Entry, writeClear t1 sp' →
              (t1.insertAt sp' (.dir Sd2)).lookup (sp' ++ r)
                = (Entry.dir Sd2).lookup r :=
            fun t1 h => lookup_insertAt_append (.dir Sd2) sp' t1 r h
          have hwc1 : writeClear
              (if t.existsAt sp' then t.removeAt sp' else t) sp' := by
            by_cases he : t.existsAt sp'
            · rw [if_pos he]; exact writeClear_removeAt hwc2
            · rw [if_neg he]; exact hwc2
          unfold deployDone
          rw [hsrc]
          cases hv : (Entry.dir Sd2).lookup r with
          | none => exact trivial
          | some e =>
            cases e with
            | file c3 =>
              exact Or.inl (by rw [hkey _ hwc1, hv])
            | dir d3 =>
              rw [hkey _ hwc1, hv]
            | symlink s3 =>
              exact trivial
    · unfold deployDone at hdone ⊢
      cases hl : staging_dir.lookup sp with
      | none => exact trivial
      | some S =>
        cases S with
        | symlink s => exact trivial
        | file c =>
          rw [hl] at hdone
          have := cross_file_none hl hr
          rw [this] at hl2
          simp at hl2
        | dir Sd =>
          rw [hl] at hdone
          have hdone2 : t.lookup sp = some (.dir Sd) := hdone
          show (deployState staging_dir t (sp ++ r)).lookup sp
            = some (.dir Sd)
          have hSwf : (Entry.dir Sd).wf = true := wf_lookup hsswf hl
          have hcons : (Entry.dir Sd).lookup r = some S2 := by
            have : staging_dir.lookup (sp ++ r)
                = (staging_dir.lookup sp).bind (fun e => e.lookup r) :=
              lookup_append r staging_dir sp
            rw [hl2, hl, Option.some_bind] at this
            exact this.symm
          cases S2 with
          | symlink s2 =>
            have := symlinkFree_lookup hssf hl2
            simp [Entry.symlinkFree] at this
          | dir Sd2 =>
            rw [deployState_dir hssf hl2]
            by_cases he : t.existsAt (sp ++ r)
            · rw [if_pos he]
              have step1 : (t.removeAt (sp ++ r)).lookup sp
                  = some ((Entry.dir Sd).removeAt r) := by
                rw [lookup_removeAt_sub sp t r hr, hdone2]
                rfl
              rw [lookup_insertAt_sub (.dir Sd2) sp _ r hr _ step1]
              rw [removeAt_insertAt_self r (.dir Sd) (.dir Sd2) hSwf hcons]
            · rw [if_neg he]
              rw [lookup_insertAt_sub (.dir Sd2) sp t r hr _ hdone2]
              rw [insertAt_lookup_self_eq r (.dir Sd) (.dir Sd2) hSwf hcons]
          | file c2 =>
            rw [deployState_file hssf hl2]
            have hdst : t.lookup (sp ++ r) = some (.file c2) := by
              rw [lookup_append, hdone2, Option.some_bind]
              exact hcons
            rw [copyFileToTarget_other htsf
              (by intro ds habs; rw [hdst] at habs; simp at habs) (.file c2)]
            rw [lookup_insertAt_sub (.file c2) sp t r hr _ hdone2]
            rw [insertAt_lookup_self_eq r (.dir Sd) (.file c2) hSwf hcons]
    · have heq1 : (deployState staging_dir t sp').lookup sp = t.lookup sp :=
        deployState_lookup_other hssf htsf h1 h2
      have hdiv := divergeAppend sp' sp h1 h2 [] [lastComponent sp]
      rw [List.append_nil] at hdiv
      have heq2 : (deployState staging_dir t sp').lookup
          (sp ++ [lastComponent sp])
          = t.lookup (sp ++ [lastComponent sp]) :=
        deployState_lookup_other hssf htsf hdiv.1 hdiv.2
      unfold deployDone at hdone ⊢
      cases hl : staging_dir.lookup sp with
      | none => exact trivial
      | some S =>
        rw [hl] at hdone
        cases S with
        | symlink s => exact trivial
        | dir Sd =>
          rw [heq1]
          exact hdone
        | file c =>
          rw [heq1, heq2]
          exact hdone

theorem writeClear_take {t : Entry} {p : List String} (hwc : writeClear t p)
    (n : Nat) : writeClear t (p.take n) := by
  intro i hi
  rw [List.length_take] at hi
  have hin : i < p.length := lt_of_lt_of_le hi (by omega)
  rw [List.take_take, min_eq_left (by omega : i ≤ n)]
  exact hwc i hin

/-- After a deploy iteration, a path at which the staging area holds a
directory still holds nothing or a directory in the target. -/
theorem deployState_noneOrDir {staging_dir t : Entry} {sp' q : List String}
    (hssf : staging_dir.symlinkFree = true)
    (htsf : t.symlinkFree = true)
    (hcsp2 : ∀ S, staging_dir.lookup sp' = some S →
      writeClear t sp'
      ∧ (∀ Sd, S = .dir Sd → noneOrDirB (t.lookup sp') = true))
    (hq : ∃ dsq, staging_dir.lookup q = some (.dir dsq))
    (hnod : noneOrDirB (t.lookup q) = true) :
    noneOrDirB ((deployState staging_dir t sp').lookup q) = true := by
  obtain ⟨dsq, hq⟩ := hq
  cases hl2 : staging_dir.lookup sp' with
  | none => rw [deployState_none hssf hl2]; exact hnod
  | some S2 =>
    obtain ⟨hwc2, hdc2⟩ := hcsp2 _ hl2
    rcases underPath_trichotomy sp' q with ⟨rq, rfl⟩ | ⟨rr, hrr, rfl⟩ | ⟨h1, h2⟩
    · cases S2 with
      | symlink s =>
        have := symlinkFree_lookup hssf hl2
        simp [Entry.symlinkFree] at this
      | file c2 =>
        by_cases hrq : rq = []
        · subst hrq
          rw [List.append_nil] at hq
          rw [hq] at hl2
          simp at hl2
        · rw [cross_file_none hl2 hrq] at hq
          simp at hq
      | dir Sd2 =>
        rw [deployState_dir hssf hl2]
        have hwc1 : writeClear
            (if t.existsAt sp' then t.removeAt sp' else t) sp' := by
          by_cases he : t.existsAt sp'
          · rw [if_pos he]; exact writeClear_removeAt hwc2
          · rw [if_neg he]; exact hwc2
        rw [lookup_insertAt_append (.dir Sd2) sp' _ rq hwc1]
        have : staging_dir.lookup (sp' ++ rq)
            = (Entry.dir Sd2).lookup rq := by
          rw [lookup_append, hl2, Option.some_bind]
        rw [this] at hq
        rw [hq]
        rfl
    · cases S2 with
      | symlink s =>
        have := symlinkFree_lookup hssf hl2
        simp [Entry.symlinkFree] at this
      | dir Sd2 =>
        rw [deployState_dir hssf hl2]
        have hwc1 : writeClear
            (if t.existsAt (q ++ rr) then t.removeAt (q ++ rr) else t)
            (q ++ rr) := by
          by_cases he : t.existsAt (q ++ rr)
          · rw [if_pos he]; exact writeClear_removeAt hwc2
          · rw [if_neg he]; exact hwc2
        obtain ⟨es2, hpar⟩ := lookup_insertAt_parents (.dir Sd2) q _ rr
          hwc1 hrr
        rw [hpar]
        rfl
      | file c2 =>
        rw [deployState_file hssf hl2]
        cases hdst : t.lookup (q ++ rr) with
        | some e =>
          cases e with
          | dir ds =>
            rw [copyFileToTarget_dir htsf hdst]
            have hwcx : writeClear t (q ++ (rr ++ [lastComponent (q ++ rr)])) := by
              rw [← List.append_assoc]
              exact writeClear_extend hwc2 hdst (lastComponent (q ++ rr))
            obtain ⟨es2, hpar⟩ := lookup_insertAt_parents (.file c2) q t
              (rr ++ [lastComponent (q ++ rr)]) hwcx (by simp)
            rw [← List.append_assoc] at hpar
            rw [hpar]
            rfl
          | file c3 =>
            rw [copyFileToTarget_other htsf
              (by intro ds habs; rw [hdst] at habs; simp at habs) (.file c2)]
            obtain ⟨es2, hpar⟩ := lookup_insertAt_parents (.file c2) q t rr
              hwc2 hrr
            rw [hpar]
            rfl
          | symlink s =>
            have := symlinkFree_lookup htsf hdst
            simp [Entry.symlinkFree] at this
        | none =>
          rw [copyFileToTarget_other htsf
            (by intro ds habs; rw [hdst] at habs; simp at habs) (.file c2)]
          obtain ⟨es2, hpar⟩ := lookup_insertAt_parents (.file c2) q t rr
            hwc2 hrr
          rw [hpar]
          rfl
    · rw [deployState_lookup_other hssf htsf h1 h2]
      exact hnod

/-- A deploy iteration preserves the compatibility facts for every sync
path that the staging area populates. -/
theorem deployCompat_step {staging_dir t : Entry} {sp sp' : List String}
    (hsswf : staging_dir.wf = true) (hssf : staging_dir.symlinkFree = true)
    (htwf : t.wf = true) (htsf : t.symlinkFree = true)
    (hroot : ∃ es, t = .dir es) (hsp2 : sp' ≠ [])
    (hcsp2 : ∀ S, staging_dir.lookup sp' = some S →
      writeClear t sp'
      ∧ (∀ Sd, S = .dir Sd → noneOrDirB (t.lookup sp') = true))
    (hcsp : ∀ S, staging_dir.lookup sp = some S →
      writeClear t sp
      ∧ (∀ Sd, S = .dir Sd → noneOrDirB (t.lookup sp) = true)) :
    ∀ S, staging_dir.lookup sp = some S →
      writeClear (deployState staging_dir t sp') sp
      ∧ (∀ Sd, S = .dir Sd →
        noneOrDirB ((deployState staging_dir t sp').lookup sp) = true) := by
  intro S hS
  obtain ⟨hwc, hdc⟩ := hcsp S hS
  constructor
  · intro i hi
    by_cases hi0 : i = 0
    · subst hi0
      rw [List.take_zero, lookup_nil]
      obtain ⟨es1, h1⟩ := deployState_root hssf hsp2 hroot
      rw [h1]
      rfl
    · have hdrop : sp.drop i ≠ [] := by
        intro habs
        rw [List.drop_eq_nil_iff] at habs
        omega
      have hsplit : sp = sp.take i ++ sp.drop i :=
        (List.take_append_drop i sp).symm
      have hqdir : ∃ dsq, staging_dir.lookup (sp.take i)
          = some (.dir dsq) := by
        have hS2 : staging_dir.lookup (sp.take i ++ sp.drop i) = some S := by
          rw [← hsplit]; exact hS
        exact lookup_deep_dir_of_ne hS2 hdrop
      exact deployState_noneOrDir hssf htsf hcsp2 hqdir (hwc i hi)
  · intro Sd hSd
    subst hSd
    exact deployState_noneOrDir hssf htsf hcsp2 ⟨Sd, hS⟩ (hdc Sd rfl)

theorem deployInv_step {staging_dir t : Entry} {sps : List (List String)}
    {sp' : List String}
    (hsswf : staging_dir.wf = true) (hssf : staging_dir.symlinkFree = true)
    (hinv : deployInv staging_dir t sps) (hsp2 : sp' ∈ sps)
    (hne : ∀ sp ∈ sps, sp ≠ []) :
    deployInv staging_dir (deployState staging_dir t sp') sps := by
  obtain ⟨htwf, htsf, hroot, hcompat⟩ := hinv
  exact ⟨deployState_wf hsswf hssf htwf,
    deployState_symlinkFree hssf htsf,
    deployState_root hssf (hne sp' hsp2) hroot,
    fun sp hsp => deployCompat_step hsswf hssf htwf htsf hroot
      (hne sp' hsp2) (hcompat sp' hsp2) (hcompat sp hsp)⟩

/-- The deploy fold splits into a state fold and the filtered list of
sync paths that exist in the staging area, kept in input order. -/
theorem deployFold_eq (staging_dir : Entry) :
    ∀ (sps : List (List String)) (t : Entry) (d : List (List String)),
    sps.foldl (deployStep staging_dir) (t, d)
      = (sps.foldl (fun u sp => deployState staging_dir u sp) t,
         d ++ sps.filter (fun sp => staging_dir.existsAt sp)) := by
  intro sps
  induction sps with
  | nil => intro t d; simp
  | cons sp sps2 ih =>
    intro t d
    rw [List.foldl_cons, deployStep_eq, ih, List.foldl_cons,
      List.filter_cons]
    by_cases he : staging_dir.existsAt sp = true
    · rw [if_pos he, if_pos he]
      simp
    · rw [if_neg he, if_neg (by exact he)]

theorem deployInv_fold {staging_dir : Entry}
    (hsswf : staging_dir.wf = true) (hssf : staging_dir.symlinkFree = true)
    {sps : List (List String)} (hne : ∀ sp ∈ sps, sp ≠ []) :
    ∀ (l : List (List String)) (t : Entry), (∀ x ∈ l, x ∈ sps) →
    deployInv staging_dir t sps →
    deployInv staging_dir
      (l.foldl (fun u sp => deployState staging_dir u sp) t) sps := by
  intro l
  induction l with
  | nil => intro t _ h; exact h
  | cons sp l2 ih =>
    intro t hsub hinv
    rw [List.foldl_cons]
    exact ih _ (fun x hx => hsub x (List.mem_cons_of_mem _ hx))
      (deployInv_step hsswf hssf hinv (hsub sp (List.mem_cons_self _ _)) hne)

theorem deployDone_fold_preserve {staging_dir : Entry}
    (hsswf : staging_dir.wf = true) (hssf : staging_dir.symlinkFree = true)
    {sps : List (List String)} (hne : ∀ sp ∈ sps, sp ≠ []) :
    ∀ (l : List (List String)) (t : Entry) (sp : List String),
    (∀ x ∈ l, x ∈ sps) → deployInv staging_dir t sps → sp ∈ sps →
    deployDone staging_dir t sp →
    deployDone staging_dir
      (l.foldl (fun u x => deployState staging_dir u x) t) sp := by
  intro l
  induction l with
  | nil => intro t sp _ _ _ hdone; exact hdone
  | cons x l2 ih =>
    intro t sp hsub hinv hsp hdone
    rw [List.foldl_cons]
    have hx : x ∈ sps := hsub x (List.mem_cons_self x l2)
    exact ih _ sp (fun y hy => hsub y (List.mem_cons_of_mem x hy))
      (deployInv_step hsswf hssf hinv hx hne) hsp
      (deployDone_preserve hsswf hssf hinv.1 hinv.2.1
        (hinv.2.2.2 x hx) hdone)

theorem deployDone_fold {staging_dir : Entry}
    (hsswf : staging_dir.wf = true) (hssf : staging_dir.symlinkFree = true)
    {sps : List (List String)} (hne : ∀ sp ∈ sps, sp ≠ []) :
    ∀ (l : List (List String)) (t : Entry),
    (∀ x ∈ l, x ∈ sps) → deployInv staging_dir t sps →
    ∀ sp ∈ l, deployDone staging_dir
      (l.foldl (fun u x => deployState staging_dir u x) t) sp := by
  intro l
  induction l with
  | nil => intro t _ _ sp hsp; exact absurd hsp (List.not_mem_nil sp)
  | cons x l2 ih =>
    intro t hsub hinv sp hsp
    rw [List.foldl_cons]
    have hx : x ∈ sps := hsub x (List.mem_cons_self x l2)
    have hinv2 := deployInv_step hsswf hssf hinv hx hne
    rcases List.mem_cons.mp hsp with heq | hsp2
    · rw [heq]
      exact deployDone_fold_preserve hsswf hssf hne l2 _ x
        (fun y hy => hsub y (List.mem_cons_of_mem x hy)) hinv2 hx
        (deployDone_establish hssf hinv.1 hinv.2.1 (hinv.2.2.2 x hx))
    · exact ih _ (fun y hy => hsub y (List.mem_cons_of_mem x hy)) hinv2 sp hsp2

theorem deployFold_fixpoint {staging_dir : Entry}
    (hssf : staging_dir.symlinkFree = true) :
    ∀ (l : List (List String)) (t : Entry), t.wf = true →
    t.symlinkFree = true →
    (∀ sp ∈ l, deployDone staging_dir t sp) →
    l.foldl (fun u x => deployState staging_dir u x) t = t := by
  intro l
  induction l with
  | nil => intro t _ _ _; rfl
  | cons x l2 ih =>
    intro t htwf htsf hall
    rw [List.foldl_cons,
      deployState_fixpoint hssf htwf htsf (hall x (List.mem_cons_self x l2))]
    exact ih t htwf htsf (fun y hy => hall y (List.mem_cons_of_mem x hy))

theorem deploy_eq_fold (staging_dir target_dir : Entry)
    (sps : List (List String)) :
    LocalEnvironment.deploy staging_dir (some target_dir) sps
      = (sps.foldl (fun u sp => deployState staging_dir u sp) target_dir,
         sps.filter (fun sp => staging_dir.existsAt sp)) := by
  show sps.foldl (deployStep staging_dir) (target_dir, []) = _
  rw [deployFold_eq, List.nil_append]

/-- C5: LocalEnvironment.deploy and LocalEnvironment.clean are
idempotent, and deploy followed by clean scrubs the sync paths.  For a
well-formed symlink-free staging area, a well-formed symlink-free
directory target, non-empty sync paths, and a target whose existing
shape is compatible with the staged shape (each staged sync path is
reachable through directories, and a staged directory never lands on an
existing plain file, the situations in which the Python run would raise
from rmtree or mkdir): (1) running deploy a second time on the first
run's target state returns exactly the first run's state and deployed
list; (2) running clean twice equals running it once; (3) after deploy
then clean, every listed sync path is absent from the target. -/
theorem deploy_clean_idempotent (staging_dir target_dir : Entry)
    (sps : List (List String))
    (hsswf : staging_dir.wf = true) (hssf : staging_dir.symlinkFree = true)
    (htwf : target_dir.wf = true) (htsf : target_dir.symlinkFree = true)
    (hroot : ∃ es, target_dir = .dir es)
    (hne : ∀ sp ∈ sps, sp ≠ [])
    (hcompat : deployCompat staging_dir target_dir sps) :
    LocalEnvironment.deploy staging_dir
        (some (LocalEnvironment.deploy staging_dir (some target_dir) sps).1)
        sps
      = LocalEnvironment.deploy staging_dir (some target_dir) sps
    ∧ LocalEnvironment.clean (LocalEnvironment.clean target_dir sps) sps
      = LocalEnvironment.clean target_dir sps
    ∧ ∀ sp ∈ sps,
      (LocalEnvironment.clean
        (LocalEnvironment.deploy staging_dir (some target_dir) sps).1
        sps).lookup sp = none := by
  have hinv0 : deployInv staging_dir target_dir sps :=
    ⟨htwf, htsf, hroot, hcompat⟩
  have h1 : (LocalEnvironment.deploy staging_dir (some target_dir) sps).1
      = sps.foldl (fun u sp => deployState staging_dir u sp) target_dir := by
    rw [deploy_eq_fold]
  have hinv1 := deployInv_fold hsswf hssf hne sps target_dir
    (fun x hx => hx) hinv0
  have hdone := deployDone_fold hsswf hssf hne sps target_dir
    (fun x hx => hx) hinv0
  refine ⟨?_, ?_, ?_⟩
  · rw [h1, deploy_eq_fold, deploy_eq_fold,
      deployFold_fixpoint hssf sps _ hinv1.1 hinv1.2.1 hdone]
  · rw [clean_eq_foldl, clean_eq_foldl]
    exact clean_foldl_fixpoint (clean_foldl_symlinkFree sps target_dir htsf)
      sps
      (fun sp hsp => clean_removes sps target_dir htwf htsf sp hsp
        (hne sp hsp))
  · intro sp hsp
    rw [clean_eq_foldl, h1]
    exact clean_removes sps _ hinv1.1 hinv1.2.1 sp hsp (hne sp hsp)

theorem deploy_clean_idempotent_witness :
    LocalEnvironment.deploy (.dir [("a", .dir [("f", .file (some "x"))])])
        (some (LocalEnvironment.deploy
          (.dir [("a", .dir [("f", .file (some "x"))])])
          (some (.dir [("other", .file (some "o"))])) [["a"]]).1) [["a"]]
      = LocalEnvironment.deploy
          (.dir [("a", .dir [("f", .file (some "x"))])])
          (some (.dir [("other", .file (some "o"))])) [["a"]]
    ∧ (LocalEnvironment.clean
        (LocalEnvironment.deploy
          (.dir [("a", .dir [("f", .file (some "x"))])])
          (some (.dir [("other", .file (some "o"))])) [["a"]]).1
        [["a"]]).lookup ["a"] = none := by
  have h := deploy_clean_idempotent
    (.dir [("a", .dir [("f", .file (some "x"))])])
    (.dir [("other", .file (some "o"))]) [["a"]]
    (by simp [Entry.wf, wfList, entriesSortedKeys] <;> decide)
    (by simp [Entry.symlinkFree, symlinkFreeList])
    (by simp [Entry.wf, wfList, entriesSortedKeys] <;> decide)
    (by simp [Entry.symlinkFree, symlinkFreeList])
    ⟨_, rfl⟩
    (by intro sp hsp; fin_cases hsp <;> simp)
    (by
      intro sp hsp S hS
      fin_cases hsp
      refine ⟨?_, ?_⟩
      · intro i hi
        have h0 : i = 0 := by
          simp at hi
          omega
        subst h0
        decide
      · intro Sd hSd
        decide)
  exact ⟨h.1, h.2.2 ["a"] (by simp)⟩

/-- Counterexample for C6: a staged plain file deployed over an existing
destination directory is copied into that directory (shutil.copy2 with a
directory dst writes dst/basename, adapters/local.py line 62), so the
old directory content survives beside the new file; the destination is
merged into, not fully replaced. -/
theorem deploy_file_into_existing_dir_not_replaced :
    (LocalEnvironment.deploy (.dir [("a", .file (some "x"))])
        (some (.dir [("a", .dir [("junk", .file (some "j"))])])) [["a"]]).2
      = [["a"]]
    ∧ ((LocalEnvironment.deploy (.dir [("a", .file (some "x"))])
        (some (.dir [("a", .dir [("junk", .file (some "j"))])])) [["a"]]).1).lookup
        ["a", "junk"] = some (.file (some "j"))
    ∧ ((LocalEnvironment.deploy (.dir [("a", .file (some "x"))])
        (some (.dir [("a", .dir [("junk", .file (some "j"))])])) [["a"]]).1).lookup
        ["a", "a"] = some (.file (some "x")) := by
  refine ⟨rfl, ?_, ?_⟩ <;>
    simp [LocalEnvironment.deploy, deployStep, copyFileToTarget,
      Entry.insertAt, findEntry, orderedInsert, buildChain, Entry.lookup,
      Entry.existsAt, Entry.isDirAt, Entry.resolveAt, maxLinkDepth,
      lastComponent]

/-- C6 (amended): under the compatibility hypotheses, deploy returns
exactly the sync paths that exist in the staging area in input-list
order, starts from an empty directory when the target is absent, and
leaves every listed sync path in its deployed shape: a staged directory
replaces the destination wholesale (the final target holds exactly the
staged subtree at that path), while a staged file lands either at the
sync path itself or, when a directory already occupied the destination,
inside that directory under the file's base name. -/
theorem deploy_returns_and_postcondition (staging_dir target_dir : Entry)
    (sps : List (List String))
    (hsswf : staging_dir.wf = true) (hssf : staging_dir.symlinkFree = true)
    (htwf : target_dir.wf = true) (htsf : target_dir.symlinkFree = true)
    (hroot : ∃ es, target_dir = .dir es)
    (hne : ∀ sp ∈ sps, sp ≠ [])
    (hcompat : deployCompat staging_dir target_dir sps) :
    (LocalEnvironment.deploy staging_dir (some target_dir) sps).2
      = sps.filter (fun sp => staging_dir.existsAt sp)
    ∧ (∀ sp ∈ sps, deployDone staging_dir
        (LocalEnvironment.deploy staging_dir (some target_dir) sps).1 sp)
    ∧ LocalEnvironment.deploy staging_dir none sps
        = LocalEnvironment.deploy staging_dir (some (.dir [])) sps := by
  refine ⟨?_, ?_, rfl⟩
  · rw [deploy_eq_fold]
  · intro sp hsp
    have h1 : (LocalEnvironment.deploy staging_dir (some target_dir) sps).1
        = sps.foldl (fun u sp => deployState staging_dir u sp) target_dir := by
      rw [deploy_eq_fold]
    rw [h1]
    exact deployDone_fold hsswf hssf hne sps target_dir (fun x hx => hx)
      ⟨htwf, htsf, hroot, hcompat⟩ sp hsp

theorem deploy_returns_and_postcondition_witness :
    (LocalEnvironment.deploy (.dir [("d", .dir [("g", .file (some "y"))])])
        (some (.dir [])) [["d"], ["missing"]]).2 = [["d"]]
    ∧ deployDone (.dir [("d", .dir [("g", .file (some "y"))])])
        (LocalEnvironment.deploy
          (.dir [("d", .dir [("g", .file (some "y"))])])
          (some (.dir [])) [["d"], ["missing"]]).1 ["d"] := by
  have h := deploy_returns_and_postcondition
    (.dir [("d", .dir [("g", .file (some "y"))])]) (.dir [])
    [["d"], ["missing"]]
    (by simp [Entry.wf, wfList, entriesSortedKeys] <;> decide)
    (by simp [Entry.symlinkFree, symlinkFreeList])
    (by simp [Entry.wf, wfList, entriesSortedKeys] <;> decide)
    (by simp [Entry.symlinkFree, symlinkFreeList])
    ⟨_, rfl⟩
    (by intro sp hsp; fin_cases hsp <;> simp)
    (by
      intro sp hsp S hS
      fin_cases hsp
      · refine ⟨?_, ?_⟩
        · intro i hi
          have h0 : i = 0 := by
            simp at hi
            omega
          subst h0
          decide
        · intro Sd hSd
          decide
      · have hS2 : (none : Option Entry) = some S := hS
        exact Option.noConfusion hS2)
  exact ⟨h.1.trans (by decide), h.2.1 ["d"] (by simp)⟩

end KitchenSync
